import Mathlib

/-!
Verification of the mc_translator batch-translation core.

The definitions below are a shallow embedding of the Rust sources:
  - src/logic/common.rs   (execute_translation_batches, sanitize_json_content,
                           core_translation_pipeline)
  - src/logic/openai.rs   (send_with_retry)
  - src/logic/formats/snbt.rs (the splice loop of process_snbt)

A serde_json::Map is modelled as an association list with unique keys
(the uniqueness is carried as a Nodup hypothesis where needed); JSON values
are modelled as either a string or an opaque non-string payload, which is
all the pipeline distinguishes.  The remote client is modelled as an oracle
from the list of submitted texts to an optional response list (none models
a transport error, including a cancellation-aborted in-flight call).  The
cancellation token is modelled by the index of the first chunk-dispatch
check at which it reads as cancelled (none models a run that is never
cancelled).  Asynchronous tasks are merged in dispatch order in the model;
the code merges in join order, but since the chunks carry pairwise disjoint
key sets every merge order produces the same mapping, which is what the
theorems below establish key by key.
-/

namespace McTranslator

/-- serde_json::Value as the pipeline observes it: a string (candidate for
translation) or an opaque non-string payload (passed through). -/
inductive JsonValue where
  | str : String → JsonValue
  | other : Nat → JsonValue
  deriving DecidableEq, Repr

/-- serde_json::Map modelled as an association list. -/
abbrev Mapping := List (String × JsonValue)

/-- The keys of a mapping, in order. -/
def keysOf (m : Mapping) : List String :=
  m.map (fun p => p.1)

/-- Map::get. -/
def mapGet (m : Mapping) (k : String) : Option JsonValue :=
  match m with
  | [] => none
  | p :: rest => if p.1 = k then some p.2 else mapGet rest k

/-- Map::contains_key. -/
def containsKey (m : Mapping) (k : String) : Bool :=
  (mapGet m k).isSome

/-- Map::insert: replaces the value in place when the key is present,
appends a fresh entry otherwise. -/
def mapInsert (m : Mapping) (k : String) (v : JsonValue) : Mapping :=
  match m with
  | [] => [(k, v)]
  | p :: rest => if p.1 = k then (k, v) :: rest else p :: mapInsert rest k v

/-- Map::remove (keys are unique in a serde map; the model removes the
first matching entry). -/
def mapRemove (m : Mapping) (k : String) : Mapping :=
  match m with
  | [] => []
  | p :: rest => if p.1 = k then rest else p :: mapRemove rest k

theorem mapGet_eq_none_iff (m : Mapping) (k : String) :
    mapGet m k = none ↔ k ∉ keysOf m := by
  induction m with
  | nil => simp [mapGet, keysOf]
  | cons p rest ih =>
    simp only [mapGet, keysOf, List.map_cons, List.mem_cons]
    by_cases h : p.1 = k
    · simp [h]
    · have h' : ¬ k = p.1 := fun hh => h hh.symm
      simp [h, h', ih, keysOf]

theorem mapGet_isSome_iff (m : Mapping) (k : String) :
    (mapGet m k).isSome = true ↔ k ∈ keysOf m := by
  rw [Option.isSome_iff_ne_none]
  constructor
  · intro h
    by_contra hk
    exact h ((mapGet_eq_none_iff m k).mpr hk)
  · intro h hnone
    exact ((mapGet_eq_none_iff m k).mp hnone) h

theorem mapGet_insert_self (m : Mapping) (k : String) (v : JsonValue) :
    mapGet (mapInsert m k v) k = some v := by
  induction m with
  | nil => simp [mapInsert, mapGet]
  | cons p rest ih =>
    by_cases h : p.1 = k <;> simp [mapInsert, mapGet, h, ih]

theorem mapGet_insert_ne (m : Mapping) (k k' : String) (v : JsonValue)
    (h : k' ≠ k) : mapGet (mapInsert m k v) k' = mapGet m k' := by
  have h' : ¬ k = k' := fun hh => h hh.symm
  induction m with
  | nil => simp [mapInsert, mapGet, h']
  | cons p rest ih =>
    by_cases hp : p.1 = k
    · simp [mapInsert, mapGet, hp, h']
    · simp only [mapInsert, if_neg hp]
      by_cases hp' : p.1 = k' <;> simp [mapGet, hp', ih]

theorem mapGet_remove_ne (m : Mapping) (k k' : String)
    (h : k' ≠ k) : mapGet (mapRemove m k) k' = mapGet m k' := by
  have h' : ¬ k = k' := fun hh => h hh.symm
  induction m with
  | nil => simp [mapRemove]
  | cons p rest ih =>
    by_cases hp : p.1 = k
    · have hp' : ¬ p.1 = k' := fun hh => h (by rw [← hh]; exact hp)
      simp [mapRemove, mapGet, hp, hp', h, h']
    · by_cases hp' : p.1 = k' <;> simp [mapRemove, mapGet, hp, hp', h, h', ih]

theorem mapGet_remove_self (m : Mapping) (k : String)
    (hnd : (keysOf m).Nodup) : mapGet (mapRemove m k) k = none := by
  induction m with
  | nil => simp [mapRemove, mapGet]
  | cons p rest ih =>
    simp only [keysOf, List.map_cons, List.nodup_cons] at hnd
    by_cases hp : p.1 = k
    · simp only [mapRemove, if_pos hp]
      rw [mapGet_eq_none_iff]
      exact hp ▸ hnd.1
    · simp [mapRemove, mapGet, hp, ih hnd.2]

theorem mapGet_remove_none (m : Mapping) (k k' : String)
    (h : mapGet m k' = none) : mapGet (mapRemove m k) k' = none := by
  induction m with
  | nil => simpa [mapRemove] using h
  | cons p rest ih =>
    simp only [mapGet] at h
    by_cases hp' : p.1 = k'
    · simp [hp'] at h
    · rw [if_neg hp'] at h
      by_cases hp : p.1 = k
      · simpa [mapRemove, if_pos hp] using h
      · simp only [mapRemove, if_neg hp, mapGet, if_neg hp']
        exact ih h

theorem keysOf_insert_mem (m : Mapping) (k : String) (v : JsonValue)
    (h : k ∈ keysOf m) : keysOf (mapInsert m k v) = keysOf m := by
  induction m with
  | nil => simp [keysOf] at h
  | cons p rest ih =>
    by_cases hp : p.1 = k
    · simp [mapInsert, keysOf, hp]
    · simp only [keysOf, List.map_cons, List.mem_cons] at h
      rcases h with h | h
      · exact absurd h.symm hp
      · simp only [mapInsert, if_neg hp, keysOf, List.map_cons]
        have := ih (by simpa [keysOf] using h)
        simp only [keysOf] at this
        rw [this]

theorem keysOf_insert_not_mem (m : Mapping) (k : String) (v : JsonValue)
    (h : k ∉ keysOf m) : keysOf (mapInsert m k v) = keysOf m ++ [k] := by
  induction m with
  | nil => simp [mapInsert, keysOf]
  | cons p rest ih =>
    simp only [keysOf, List.map_cons, List.mem_cons] at h
    push_neg at h
    have hp : ¬ p.1 = k := fun hh => h.1 hh.symm
    simp only [mapInsert, if_neg hp, keysOf, List.map_cons]
    have := ih (by simpa [keysOf] using h.2)
    simp only [keysOf] at this
    rw [this]
    exact (List.cons_append _ _ _).symm

theorem mem_keysOf_insert (m : Mapping) (k k' : String) (v : JsonValue) :
    k' ∈ keysOf (mapInsert m k v) ↔ k' ∈ keysOf m ∨ k' = k := by
  by_cases h : k ∈ keysOf m
  · rw [keysOf_insert_mem m k v h]
    constructor
    · exact Or.inl
    · rintro (hh | rfl) <;> [exact hh; exact h]
  · rw [keysOf_insert_not_mem m k v h]
    simp

theorem nodup_keysOf_insert (m : Mapping) (k : String) (v : JsonValue)
    (hnd : (keysOf m).Nodup) : (keysOf (mapInsert m k v)).Nodup := by
  by_cases h : k ∈ keysOf m
  · rwa [keysOf_insert_mem m k v h]
  · rw [keysOf_insert_not_mem m k v h]
    simpa [List.nodup_append] using ⟨hnd, fun hk => h hk⟩

theorem keysOf_remove_sublist (m : Mapping) (k : String) :
    (keysOf (mapRemove m k)).Sublist (keysOf m) := by
  induction m with
  | nil => simp [mapRemove]
  | cons p rest ih =>
    by_cases hp : p.1 = k
    · simp only [mapRemove, if_pos hp, keysOf, List.map_cons]
      exact (List.Sublist.refl _).cons p.1
    · simp only [mapRemove, if_neg hp, keysOf, List.map_cons]
      exact ih.cons₂ p.1

theorem nodup_keysOf_remove (m : Mapping) (k : String)
    (hnd : (keysOf m).Nodup) : (keysOf (mapRemove m k)).Nodup :=
  hnd.sublist (keysOf_remove_sublist m k)

theorem mapGet_mem (m : Mapping) (k : String) (v : JsonValue)
    (hnd : (keysOf m).Nodup) (h : (k, v) ∈ m) : mapGet m k = some v := by
  induction m with
  | nil => simp at h
  | cons p rest ih =>
    simp only [keysOf, List.map_cons, List.nodup_cons] at hnd
    rcases List.mem_cons.mp h with h | h
    · simp [mapGet, ← h]
    · have hk : p.1 ≠ k := by
        intro hp
        exact hnd.1 (hp ▸ (List.mem_map.mpr ⟨(k, v), h, rfl⟩))
      simp [mapGet, hk, ih hnd.2 h]

/-! Scheduler: execute_translation_batches (src/logic/common.rs, lines 23-120). -/

/-- Rust str::trim().is_empty() negated: a string survives the filter iff it
has a non-whitespace character. -/
def trimNonEmpty (s : String) : Bool :=
  s.toList.any (fun c => !c.isWhitespace)

/-- The filter_map building pending_items: keep entries whose value is a
string that is non-empty after trimming (common.rs lines 33-43). -/
def pendingItems (m : Mapping) : List (String × String) :=
  m.filterMap (fun p =>
    match p.2 with
    | .str s => if trimNonEmpty s then some (p.1, s) else none
    | .other _ => none)

/-- The zero-chunk-size fallback (common.rs line 31). -/
def safeBatchSize (batchSize : Nat) : Nat :=
  if batchSize = 0 then 20 else batchSize

/-- slice::chunks with explicit fuel; the fuel equals the list length at the
top-level call, which is enough whenever the chunk size is positive. -/
def chunksOfAux (n : Nat) : Nat → List α → List (List α)
  | _, [] => []
  | 0, _ :: _ => []
  | fuel + 1, x :: xs => ((x :: xs).take n) :: chunksOfAux n fuel ((x :: xs).drop n)

/-- slice::chunks(n): partition a list into consecutive chunks of size n
(the last one may be shorter). -/
def chunksOf (n : Nat) (l : List α) : List (List α) :=
  chunksOfAux n l.length l

/-- The batch task body (common.rs lines 79-98): submit the chunk's source
texts, keep the response only when the call succeeded and the returned list
has the chunk's length.  The remote client is an oracle from the submitted
texts to an optional response. -/
def chunkResponse (translate : List String → Option (List String))
    (chunk : List (String × String)) : List String × Option (List String) :=
  match translate (chunk.map (fun u => u.2)) with
  | some ts =>
      (chunk.map (fun u => u.1), if ts.length = chunk.length then some ts else none)
  | none => (chunk.map (fun u => u.1), none)

/-- The merge of one completed batch (common.rs lines 102-117): on success
the Nth text overwrites the Nth key, on failure every key of the chunk is
removed. -/
def mergeChunkResult (m : Mapping) : List String × Option (List String) → Mapping
  | (keys, some ts) =>
      (keys.zip ts).foldl (fun acc kt => mapInsert acc kt.1 (.str kt.2)) m
  | (keys, none) => keys.foldl (fun acc k => mapRemove acc k) m

/-- The chunks actually dispatched: the loop checks the cancellation token
before each dispatch (common.rs lines 55-58), so a token that first reads
cancelled before the dispatch of chunk index c cuts the chunk list to its
first c elements; cancelAt = none is a run that never observes
cancellation. -/
def dispatchedChunks (m : Mapping) (batchSize : Nat) (cancelAt : Option Nat) :
    List (List (String × String)) :=
  let allChunks := chunksOf (safeBatchSize batchSize) (pendingItems m)
  match cancelAt with
  | none => allChunks
  | some c => allChunks.take c

/-- execute_translation_batches, also exposing the list of text batches
submitted to the remote client (one entry per acquired network permit).
Tasks are merged in dispatch order; the code merges in completion order,
which yields the same mapping because chunk key sets are pairwise
disjoint. -/
def executeTranslationBatchesFull (m : Mapping) (batchSize : Nat)
    (translate : List String → Option (List String)) (cancelAt : Option Nat) :
    Mapping × List (List String) :=
  if (pendingItems m).length = 0 then (m, [])
  else
    let chunks := dispatchedChunks m batchSize cancelAt
    ((chunks.map (chunkResponse translate)).foldl mergeChunkResult m,
      chunks.map (fun c => c.map (fun u => u.2)))

/-- execute_translation_batches (common.rs lines 23-120): the resulting
mapping. -/
def executeTranslationBatches (m : Mapping) (batchSize : Nat)
    (translate : List String → Option (List String)) (cancelAt : Option Nat) :
    Mapping :=
  (executeTranslationBatchesFull m batchSize translate cancelAt).1

theorem safeBatchSize_pos (batchSize : Nat) : 0 < safeBatchSize batchSize := by
  unfold safeBatchSize
  split <;> omega

theorem chunksOfAux_flatten {n : Nat} (hn : 0 < n) :
    ∀ (fuel : Nat) (l : List α), l.length ≤ fuel → (chunksOfAux n fuel l).flatten = l := by
  intro fuel
  induction fuel with
  | zero =>
    intro l hl
    cases l with
    | nil => simp [chunksOfAux]
    | cons x xs => simp at hl
  | succ fuel ih =>
    intro l hl
    cases l with
    | nil => simp [chunksOfAux]
    | cons x xs =>
      have hd : ((x :: xs).drop n).length ≤ fuel := by
        simp only [List.length_drop, List.length_cons]
        simp only [List.length_cons] at hl
        omega
      simp only [chunksOfAux, List.flatten_cons]
      rw [ih ((x :: xs).drop n) hd]
      exact List.take_append_drop n (x :: xs)

theorem chunksOf_flatten {n : Nat} (hn : 0 < n) (l : List α) :
    (chunksOf n l).flatten = l :=
  chunksOfAux_flatten hn l.length l (Nat.le_refl _)

theorem chunksOfAux_mem {n : Nat} (hn : 0 < n) :
    ∀ (fuel : Nat) (l : List α), l.length ≤ fuel →
      ∀ c ∈ chunksOfAux n fuel l, c.length ≤ n ∧ c ≠ [] := by
  intro fuel
  induction fuel with
  | zero =>
    intro l hl c hc
    cases l with
    | nil => simp [chunksOfAux] at hc
    | cons x xs => simp at hl
  | succ fuel ih =>
    intro l hl c hc
    cases l with
    | nil => simp [chunksOfAux] at hc
    | cons x xs =>
      have hd : ((x :: xs).drop n).length ≤ fuel := by
        simp only [List.length_drop, List.length_cons]
        simp only [List.length_cons] at hl
        omega
      simp only [chunksOfAux, List.mem_cons] at hc
      rcases hc with hc | hc
      · subst hc
        constructor
        · exact List.length_take_le n (x :: xs)
        · intro htake
          have := congrArg List.length htake
          simp only [List.length_take, List.length_nil, List.length_cons] at this
          omega
      · exact ih ((x :: xs).drop n) hd c hc

theorem chunksOf_mem {n : Nat} (hn : 0 < n) (l : List α) :
    ∀ c ∈ chunksOf n l, c.length ≤ n ∧ c ≠ [] :=
  chunksOfAux_mem hn l.length l (Nat.le_refl _)

theorem chunksOfAux_length {n : Nat} (hn : 0 < n) :
    ∀ (fuel : Nat) (l : List α), l.length ≤ fuel →
      (chunksOfAux n fuel l).length = (l.length + n - 1) / n := by
  have hz : (n - 1) / n = 0 := Nat.div_eq_of_lt (by omega)
  intro fuel
  induction fuel with
  | zero =>
    intro l hl
    cases l with
    | nil => simpa [chunksOfAux] using hz.symm
    | cons x xs => simp at hl
  | succ fuel ih =>
    intro l hl
    cases l with
    | nil => simpa [chunksOfAux] using hz.symm
    | cons x xs =>
      have hd : ((x :: xs).drop n).length ≤ fuel := by
        simp only [List.length_drop, List.length_cons]
        simp only [List.length_cons] at hl
        omega
      simp only [chunksOfAux, List.length_cons]
      rw [ih ((x :: xs).drop n) hd]
      simp only [List.length_drop, List.length_cons]
      rcases Nat.le_total (xs.length + 1) n with hle | hle
      · have h1 : xs.length + 1 - n = 0 := by omega
        rw [h1]
        have h2 : (0 + n - 1) / n = 0 := Nat.div_eq_of_lt (by omega)
        rw [h2]
        have h3 : xs.length + 1 + n - 1 = xs.length + n := by omega
        rw [h3]
        have h4 : (xs.length + n) / n = xs.length / n + 1 := Nat.add_div_right _ hn
        rw [h4]
        have h5 : xs.length / n = 0 := Nat.div_eq_of_lt (by omega)
        omega
      · have h1 : xs.length + 1 - n + n - 1 = xs.length + 1 - 1 := by omega
        have h2 : xs.length + 1 + n - 1 = (xs.length + 1 - 1) + n := by omega
        rw [h1, h2, Nat.add_div_right _ hn]

theorem chunksOf_length {n : Nat} (hn : 0 < n) (l : List α) :
    (chunksOf n l).length = (l.length + n - 1) / n :=
  chunksOfAux_length hn l.length l (Nat.le_refl _)

/-- The value filter of pending_items, as a predicate on a single entry. -/
def isPendingValue : JsonValue → Bool
  | .str s => trimNonEmpty s
  | .other _ => false

theorem mem_pendingItems (m : Mapping) (k s : String) :
    (k, s) ∈ pendingItems m ↔ (k, JsonValue.str s) ∈ m ∧ trimNonEmpty s = true := by
  unfold pendingItems
  rw [List.mem_filterMap]
  constructor
  · rintro ⟨p, hp, hmatch⟩
    rcases p with ⟨k', v⟩
    cases v with
    | str s' =>
      simp only at hmatch
      by_cases ht : trimNonEmpty s'
      · rw [if_pos ht] at hmatch
        have h2 := Option.some.inj hmatch
        have hk : k' = k := congrArg Prod.fst h2
        have hs : s' = s := congrArg Prod.snd h2
        subst hk
        subst hs
        exact ⟨hp, ht⟩
      · rw [if_neg ht] at hmatch
        exact absurd hmatch (by simp)
    | other p => exact absurd hmatch (by simp)
  · rintro ⟨hmem, ht⟩
    exact ⟨(k, .str s), hmem, by simp [ht]⟩

theorem pendingItems_keys_sublist (m : Mapping) :
    ((pendingItems m).map (fun u => u.1)).Sublist (keysOf m) := by
  induction m with
  | nil => simp [pendingItems]
  | cons p rest ih =>
    rcases p with ⟨k, v⟩
    cases v with
    | str s =>
      by_cases ht : trimNonEmpty s
      · simpa [pendingItems, keysOf, ht] using ih.cons₂ k
      · simpa [pendingItems, keysOf, ht] using ih.cons k
    | other j => simpa [pendingItems, keysOf] using ih.cons k

theorem pendingItems_eq_nil (m : Mapping)
    (h : ∀ p ∈ m, isPendingValue p.2 = false) : pendingItems m = [] := by
  induction m with
  | nil => rfl
  | cons p rest ih =>
    have hp := h p (List.mem_cons_self p rest)
    have hrest := ih (fun q hq => h q (List.mem_cons_of_mem p hq))
    rcases p with ⟨k, v⟩
    cases v with
    | str s =>
      simp only [isPendingValue] at hp
      simp [pendingItems, hp]
      simpa [pendingItems] using hrest
    | other j =>
      simp [pendingItems]
      simpa [pendingItems] using hrest

theorem chunkResponse_fst (translate : List String → Option (List String))
    (chunk : List (String × String)) :
    (chunkResponse translate chunk).1 = chunk.map (fun u => u.1) := by
  unfold chunkResponse
  cases translate (chunk.map fun u => u.2) <;> simp

theorem foldl_insert_str_get_ne (ps : List (String × String)) (m : Mapping) (k : String)
    (h : k ∉ ps.map (fun p => p.1)) :
    mapGet (ps.foldl (fun acc kt => mapInsert acc kt.1 (.str kt.2)) m) k = mapGet m k := by
  induction ps generalizing m with
  | nil => rfl
  | cons p rest ih =>
    simp only [List.map_cons, List.mem_cons] at h
    push_neg at h
    simp only [List.foldl_cons]
    rw [ih _ h.2, mapGet_insert_ne _ _ _ _ h.1]

theorem foldl_remove_get_ne (ks : List String) (m : Mapping) (k : String)
    (h : k ∉ ks) :
    mapGet (ks.foldl (fun acc k2 => mapRemove acc k2) m) k = mapGet m k := by
  induction ks generalizing m with
  | nil => rfl
  | cons k2 rest ih =>
    simp only [List.mem_cons] at h
    push_neg at h
    simp only [List.foldl_cons]
    rw [ih _ h.2, mapGet_remove_ne _ _ _ h.1]

theorem foldl_remove_get_none (ks : List String) (m : Mapping) (k : String)
    (h : mapGet m k = none) :
    mapGet (ks.foldl (fun acc k2 => mapRemove acc k2) m) k = none := by
  induction ks generalizing m with
  | nil => exact h
  | cons k2 rest ih =>
    simp only [List.foldl_cons]
    exact ih _ (mapGet_remove_none _ _ _ h)

theorem mergeChunkResult_get_ne (m : Mapping) (r : List String × Option (List String))
    (k : String) (hk : k ∉ r.1) :
    mapGet (mergeChunkResult m r) k = mapGet m k := by
  rcases r with ⟨keys, o⟩
  cases o with
  | none => exact foldl_remove_get_ne keys m k hk
  | some ts =>
    simp only at hk
    apply foldl_insert_str_get_ne
    intro hmem
    rcases List.mem_map.mp hmem with ⟨⟨a, b⟩, hab, hfst⟩
    apply hk
    simp only at hfst
    rw [← hfst]
    exact (List.of_mem_zip hab).1

theorem mergeAll_get_ne (rs : List (List String × Option (List String)))
    (m : Mapping) (k : String) (h : ∀ r ∈ rs, k ∉ r.1) :
    mapGet (rs.foldl mergeChunkResult m) k = mapGet m k := by
  induction rs generalizing m with
  | nil => rfl
  | cons r rest ih =>
    simp only [List.foldl_cons]
    rw [ih _ (fun q hq => h q (List.mem_cons_of_mem r hq)),
      mergeChunkResult_get_ne _ _ _ (h r (List.mem_cons_self r rest))]

theorem nodup_foldl_insert_str (ps : List (String × String)) (m : Mapping)
    (h : (keysOf m).Nodup) :
    (keysOf (ps.foldl (fun acc kt => mapInsert acc kt.1 (.str kt.2)) m)).Nodup := by
  induction ps generalizing m with
  | nil => exact h
  | cons p rest ih => exact ih _ (nodup_keysOf_insert _ _ _ h)

theorem nodup_foldl_remove (ks : List String) (m : Mapping)
    (h : (keysOf m).Nodup) :
    (keysOf (ks.foldl (fun acc k2 => mapRemove acc k2) m)).Nodup := by
  induction ks generalizing m with
  | nil => exact h
  | cons k2 rest ih => exact ih _ (nodup_keysOf_remove _ _ h)

theorem nodup_mergeChunkResult (m : Mapping) (r : List String × Option (List String))
    (h : (keysOf m).Nodup) : (keysOf (mergeChunkResult m r)).Nodup := by
  rcases r with ⟨keys, o⟩
  cases o with
  | none => exact nodup_foldl_remove keys m h
  | some ts => exact nodup_foldl_insert_str _ m h

theorem nodup_mergeAll (rs : List (List String × Option (List String)))
    (m : Mapping) (h : (keysOf m).Nodup) :
    (keysOf (rs.foldl mergeChunkResult m)).Nodup := by
  induction rs generalizing m with
  | nil => exact h
  | cons r rest ih => exact ih _ (nodup_mergeChunkResult m r h)

theorem mergeChunkResult_get_at (keys ts : List String) (m : Mapping)
    (hnd : keys.Nodup) (hlen : ts.length = keys.length)
    (j : Nat) (hj : j < keys.length) :
    mapGet (mergeChunkResult m (keys, some ts)) (keys.get ⟨j, hj⟩)
      = some (.str (ts.get ⟨j, by omega⟩)) := by
  induction keys generalizing m ts j with
  | nil => simp at hj
  | cons k0 krest ih =>
    cases ts with
    | nil => simp at hlen
    | cons t0 trest =>
      simp only [List.nodup_cons] at hnd
      simp only [List.length_cons] at hlen
      cases j with
      | zero =>
        simp only [mergeChunkResult, List.zip_cons_cons, List.foldl_cons, List.get]
        have hfr : (k0 : String) ∉ (krest.zip trest).map (fun p => p.1) := by
          intro hmem
          rcases List.mem_map.mp hmem with ⟨⟨a, b⟩, hab, hfst⟩
          exact hnd.1 (hfst ▸ (List.of_mem_zip hab).1)
        have := foldl_insert_str_get_ne (krest.zip trest) (mapInsert m k0 (.str t0)) k0 hfr
        simp only [mergeChunkResult] at this ⊢
        rw [this, mapGet_insert_self]
      | succ j' =>
        simp only [List.length_cons] at hj
        have := ih trest (mapInsert m k0 (.str t0)) hnd.2 (by omega) j' (by omega)
        simp only [mergeChunkResult] at this ⊢
        simp only [List.zip_cons_cons, List.foldl_cons]
        exact this

theorem mergeChunkResult_get_failed (keys : List String) (m : Mapping)
    (hnd : (keysOf m).Nodup) (k : String) (hk : k ∈ keys) :
    mapGet (mergeChunkResult m (keys, none)) k = none := by
  induction keys generalizing m with
  | nil => simp at hk
  | cons k0 krest ih =>
    simp only [mergeChunkResult, List.foldl_cons] at ih ⊢
    rcases List.mem_cons.mp hk with rfl | hk
    · exact foldl_remove_get_none krest _ k (mapGet_remove_self m k hnd)
    · exact ih (mapRemove m k0) (nodup_keysOf_remove m k0 hnd) hk

theorem dispatchedChunks_sublist (m : Mapping) (batchSize : Nat) (cancelAt : Option Nat) :
    (dispatchedChunks m batchSize cancelAt).Sublist
      (chunksOf (safeBatchSize batchSize) (pendingItems m)) := by
  cases cancelAt with
  | none => exact List.Sublist.refl _
  | some c => exact List.take_sublist _ _

theorem executeTranslationBatches_chunk_spec (m : Mapping) (batchSize : Nat)
    (translate : List String → Option (List String)) (cancelAt : Option Nat)
    (hnd : (keysOf m).Nodup)
    (i : Nat) (chunk : List (String × String))
    (hchunk : (dispatchedChunks m batchSize cancelAt)[i]? = some chunk) :
    (∀ ts, translate (chunk.map (fun u => u.2)) = some ts →
        ∀ hlen : ts.length = chunk.length, ∀ j : Nat, ∀ hj : j < chunk.length,
        mapGet (executeTranslationBatches m batchSize translate cancelAt)
            (chunk.get ⟨j, hj⟩).1
          = some (.str (ts.get ⟨j, by omega⟩))) ∧
    ((∀ ts, translate (chunk.map (fun u => u.2)) = some ts → ts.length ≠ chunk.length) →
      ∀ k ∈ chunk.map (fun u => u.1),
        mapGet (executeTranslationBatches m batchSize translate cancelAt) k = none) := by
  have hnpos : 0 < safeBatchSize batchSize := safeBatchSize_pos batchSize
  have hDsub := dispatchedChunks_sublist m batchSize cancelAt
  have hflat := chunksOf_flatten hnpos (pendingItems m)
  have hPkeys : ((pendingItems m).map (fun u => u.1)).Nodup :=
    hnd.sublist (pendingItems_keys_sublist m)
  have hkeyflat :
      ((chunksOf (safeBatchSize batchSize) (pendingItems m)).map
        (List.map (fun u => u.1))).flatten = (pendingItems m).map (fun u => u.1) := by
    rw [← List.map_flatten, hflat]
  have hnodadj := List.nodup_flatten.mp (hkeyflat ▸ hPkeys)
  have hkeyDsub := hDsub.map (List.map (fun u : String × String => u.1))
  have hpairD : ((dispatchedChunks m batchSize cancelAt).map
      (List.map (fun u => u.1))).Pairwise List.Disjoint :=
    List.Pairwise.sublist hkeyDsub hnodadj.2
  obtain ⟨hi, hieq⟩ := List.getElem?_eq_some_iff.mp hchunk
  have hchunkmem : chunk ∈ dispatchedChunks m batchSize cancelAt :=
    hieq ▸ List.getElem_mem hi
  have hchunkkeysnd : (chunk.map (fun u => u.1)).Nodup :=
    hnodadj.1 _ (List.mem_map.mpr ⟨chunk, hDsub.subset hchunkmem, rfl⟩)
  have hsplit := List.take_append_drop i (dispatchedChunks m batchSize cancelAt)
  rw [List.drop_eq_getElem_cons hi, hieq] at hsplit
  have hPne : ¬ (pendingItems m).length = 0 := by
    intro h0
    rw [List.length_eq_zero] at h0
    have hc0 : chunksOf (safeBatchSize batchSize) (pendingItems m) = [] := by
      rw [h0]
      rfl
    have hD0 : dispatchedChunks m batchSize cancelAt = [] :=
      List.sublist_nil.mp (hc0 ▸ hDsub)
    rw [hD0] at hchunk
    simp at hchunk
  have hexec : executeTranslationBatches m batchSize translate cancelAt
      = ((dispatchedChunks m batchSize cancelAt).map
          (chunkResponse translate)).foldl mergeChunkResult m := by
    unfold executeTranslationBatches executeTranslationBatchesFull
    rw [if_neg hPne]
  have hfold : ((dispatchedChunks m batchSize cancelAt).map
        (chunkResponse translate)).foldl mergeChunkResult m
      = (((dispatchedChunks m batchSize cancelAt).drop (i + 1)).map
          (chunkResponse translate)).foldl mergeChunkResult
          (mergeChunkResult
            ((((dispatchedChunks m batchSize cancelAt).take i).map
              (chunkResponse translate)).foldl mergeChunkResult m)
            (chunkResponse translate chunk)) := by
    conv_lhs => rw [← hsplit]
    rw [List.map_append, List.map_cons, List.foldl_append, List.foldl_cons]
  have hframe : ∀ k ∈ chunk.map (fun u => u.1),
      ∀ r ∈ ((dispatchedChunks m batchSize cancelAt).drop (i + 1)).map
          (chunkResponse translate), k ∉ r.1 := by
    intro k hk r hr
    rcases List.mem_map.mp hr with ⟨c2, hc2, rfl⟩
    rw [chunkResponse_fst]
    have hpair2 : ∀ b ∈ ((dispatchedChunks m batchSize cancelAt).drop (i + 1)).map
        (List.map (fun u : String × String => u.1)),
        (chunk.map (fun u => u.1)).Disjoint b := by
      have hp := hpairD
      rw [← hsplit, List.map_append, List.map_cons] at hp
      exact (List.pairwise_cons.mp (List.pairwise_append.mp hp).2.1).1
    exact hpair2 _ (List.mem_map.mpr ⟨c2, hc2, rfl⟩) hk
  have hmidnd : (keysOf ((((dispatchedChunks m batchSize cancelAt).take i).map
      (chunkResponse translate)).foldl mergeChunkResult m)).Nodup :=
    nodup_mergeAll _ _ hnd
  constructor
  · intro ts hts hlen j hj
    have hresp : chunkResponse translate chunk = (chunk.map (fun u => u.1), some ts) := by
      unfold chunkResponse
      rw [hts]
      simp [hlen]
    have hj2 : j < (List.map (fun u : String × String => u.1) chunk).length := by
      simpa using hj
    have hkeyeq : List.get (List.map (fun u : String × String => u.1) chunk) ⟨j, hj2⟩
        = (chunk.get ⟨j, hj⟩).1 := by
      simp [List.get_eq_getElem]
    have hmem : (chunk.get ⟨j, hj⟩).1 ∈ chunk.map (fun u => u.1) :=
      List.mem_map.mpr ⟨chunk.get ⟨j, hj⟩,
        by rw [List.get_eq_getElem]; exact List.getElem_mem hj, rfl⟩
    have hlen2 : ts.length = (List.map (fun u : String × String => u.1) chunk).length := by
      simpa using hlen
    have hmerge := mergeChunkResult_get_at (chunk.map (fun u => u.1)) ts
      ((((dispatchedChunks m batchSize cancelAt).take i).map
        (chunkResponse translate)).foldl mergeChunkResult m)
      hchunkkeysnd hlen2 j hj2
    rw [hkeyeq] at hmerge
    rw [hexec, hfold, mergeAll_get_ne _ _ _ (hframe _ hmem), hresp, hmerge]
  · intro hfail k hk
    have hresp : chunkResponse translate chunk = (chunk.map (fun u => u.1), none) := by
      unfold chunkResponse
      cases hcase : translate (chunk.map fun u => u.2) with
      | none => rfl
      | some ts2 => simp [hfail ts2 hcase]
    rw [hexec, hfold, mergeAll_get_ne _ _ _ (hframe k hk), hresp]
    exact mergeChunkResult_get_failed _ _ hmidnd k hk

/-- C1: batch result merge policy of execute_translation_batches.  For every
dispatched chunk: when the remote call succeeds and the returned list has the
chunk's length, the Nth returned text overwrites the value of the chunk's Nth
key in the output mapping; when the call fails or the returned length differs,
every key of the chunk is removed from the output mapping entirely, hence
absent from the final output. -/
theorem execute_translation_batches_merge_policy (m : Mapping) (batchSize : Nat)
    (translate : List String → Option (List String)) (cancelAt : Option Nat)
    (hnd : (keysOf m).Nodup)
    (i : Nat) (chunk : List (String × String))
    (hchunk : (dispatchedChunks m batchSize cancelAt)[i]? = some chunk) :
    (∀ ts, translate (chunk.map (fun u => u.2)) = some ts →
        ∀ hlen : ts.length = chunk.length, ∀ j : Nat, ∀ hj : j < chunk.length,
        mapGet (executeTranslationBatches m batchSize translate cancelAt)
            (chunk.get ⟨j, hj⟩).1
          = some (.str (ts.get ⟨j, by omega⟩))) ∧
    ((∀ ts, translate (chunk.map (fun u => u.2)) = some ts → ts.length ≠ chunk.length) →
      ∀ k ∈ chunk.map (fun u => u.1),
        mapGet (executeTranslationBatches m batchSize translate cancelAt) k = none ∧
        k ∉ keysOf (executeTranslationBatches m batchSize translate cancelAt)) := by
  obtain ⟨h1, h2⟩ := executeTranslationBatches_chunk_spec m batchSize translate cancelAt
    hnd i chunk hchunk
  refine ⟨h1, fun hfail k hk => ?_⟩
  have hz := h2 hfail k hk
  exact ⟨hz, (mapGet_eq_none_iff _ _).mp hz⟩

/-- Witness for C1: two singleton chunks; the first chunk's key receives the
first returned text; a mismatched run removes both keys. -/
theorem execute_translation_batches_merge_policy_witness :
    mapGet (executeTranslationBatches [("a", .str "x"), ("b", .str "y")] 1
        (fun l => some (l.map (fun s => s ++ "!"))) none) "a"
      = some (.str "x!") := by
  have h := execute_translation_batches_merge_policy
    [("a", .str "x"), ("b", .str "y")] 1
    (fun l => some (l.map (fun s => s ++ "!"))) none
    (by decide) 0 [("a", "x")] (by rfl)
  have h2 := h.1 ["x!"] rfl rfl 0 (by decide)
  exact h2

theorem keysOf_foldl_insert_str (ps : List (String × String)) (m : Mapping)
    (h : ∀ p ∈ ps, p.1 ∈ keysOf m) :
    keysOf (ps.foldl (fun acc kt => mapInsert acc kt.1 (.str kt.2)) m) = keysOf m := by
  induction ps generalizing m with
  | nil => rfl
  | cons p rest ih =>
    simp only [List.foldl_cons]
    have hp := h p (List.mem_cons_self p rest)
    have hkeep := keysOf_insert_mem m p.1 (.str p.2) hp
    rw [ih _ (fun q hq => by
      rw [hkeep]
      exact h q (List.mem_cons_of_mem p hq)), hkeep]

theorem keysOf_mergeChunkResult_some (keys ts : List String) (m : Mapping)
    (h : ∀ k ∈ keys, k ∈ keysOf m) :
    keysOf (mergeChunkResult m (keys, some ts)) = keysOf m := by
  apply keysOf_foldl_insert_str
  intro p hp
  rcases p with ⟨a, b⟩
  exact h a (List.of_mem_zip hp).1

theorem keysOf_mergeAll_success (rs : List (List String × Option (List String)))
    (m : Mapping)
    (h : ∀ r ∈ rs, (∃ ts, r.2 = some ts) ∧ ∀ k ∈ r.1, k ∈ keysOf m) :
    keysOf (rs.foldl mergeChunkResult m) = keysOf m := by
  induction rs generalizing m with
  | nil => rfl
  | cons r rest ih =>
    obtain ⟨⟨ts, hts⟩, hkeys⟩ := h r (List.mem_cons_self r rest)
    rcases r with ⟨keys, o⟩
    simp only at hts
    subst hts
    simp only [List.foldl_cons]
    have hk1 := keysOf_mergeChunkResult_some keys ts m hkeys
    rw [ih _ (fun q hq => by
      rw [hk1]
      exact h q (List.mem_cons_of_mem _ hq)), hk1]

theorem mem_chunk_key_imp (m : Mapping) (batchSize : Nat)
    (c : List (String × String))
    (hc : c ∈ chunksOf (safeBatchSize batchSize) (pendingItems m))
    (k : String) (hk : k ∈ c.map (fun u => u.1)) :
    ∃ s, (k, JsonValue.str s) ∈ m ∧ trimNonEmpty s = true := by
  rcases List.mem_map.mp hk with ⟨⟨a, b⟩, hab, hfst⟩
  simp only at hfst
  subst hfst
  have hmem : (a, b) ∈ pendingItems m := by
    rw [← chunksOf_flatten (safeBatchSize_pos batchSize) (pendingItems m)]
    exact List.mem_flatten.mpr ⟨c, hc, hab⟩
  obtain ⟨hm, ht⟩ := (mem_pendingItems m a b).mp hmem
  exact ⟨b, hm, ht⟩

/-- C2: a successful full run (every batch succeeds with a same-length
response, never cancelled) keeps the key list exactly (no key invented or
lost), leaves every non-translatable entry (non-string or blank-after-trim
string) unchanged, and submits exactly the filtered non-blank string values
to the remote client. -/
theorem execute_translation_batches_success_run (m : Mapping) (batchSize : Nat)
    (translate : List String → Option (List String))
    (hnd : (keysOf m).Nodup)
    (htr : ∀ l, ∃ ts, translate l = some ts ∧ ts.length = l.length) :
    keysOf (executeTranslationBatches m batchSize translate none) = keysOf m ∧
    (∀ p ∈ m, isPendingValue p.2 = false →
      mapGet (executeTranslationBatches m batchSize translate none) p.1 = some p.2) ∧
    (executeTranslationBatchesFull m batchSize translate none).2.flatten
      = (pendingItems m).map (fun u => u.2) := by
  by_cases hp : (pendingItems m).length = 0
  · have hful : executeTranslationBatchesFull m batchSize translate none = (m, []) := by
      unfold executeTranslationBatchesFull
      rw [if_pos hp]
    have hexec : executeTranslationBatches m batchSize translate none = m := by
      unfold executeTranslationBatches
      rw [hful]
    have hpe : pendingItems m = [] := List.length_eq_zero.mp hp
    refine ⟨by rw [hexec], fun p hpm _ => by rw [hexec]; exact mapGet_mem m p.1 p.2 hnd hpm,
      by rw [hful, hpe]; rfl⟩
  · have hexec : executeTranslationBatches m batchSize translate none
        = ((chunksOf (safeBatchSize batchSize) (pendingItems m)).map
            (chunkResponse translate)).foldl mergeChunkResult m := by
      unfold executeTranslationBatches executeTranslationBatchesFull
      rw [if_neg hp]
      rfl
    have hcalls : (executeTranslationBatchesFull m batchSize translate none).2
        = (chunksOf (safeBatchSize batchSize) (pendingItems m)).map
            (fun c => c.map (fun u => u.2)) := by
      unfold executeTranslationBatchesFull
      rw [if_neg hp]
      rfl
    have hrs : ∀ r ∈ (chunksOf (safeBatchSize batchSize) (pendingItems m)).map
        (chunkResponse translate), (∃ ts, r.2 = some ts) ∧ ∀ k ∈ r.1, k ∈ keysOf m := by
      intro r hr
      rcases List.mem_map.mp hr with ⟨c, hc, rfl⟩
      constructor
      · obtain ⟨ts, hts, hlen⟩ := htr (c.map (fun u => u.2))
        refine ⟨ts, ?_⟩
        unfold chunkResponse
        rw [hts]
        simp only [List.length_map] at hlen
        simp [hlen]
      · intro k hk
        rw [chunkResponse_fst] at hk
        obtain ⟨s, hm, _⟩ := mem_chunk_key_imp m batchSize c hc k hk
        exact List.mem_map.mpr ⟨(k, .str s), hm, rfl⟩
    refine ⟨?_, ?_, ?_⟩
    · rw [hexec]
      exact keysOf_mergeAll_success _ m hrs
    · intro p hpm hpv
      have hnotin : ∀ r ∈ (chunksOf (safeBatchSize batchSize) (pendingItems m)).map
          (chunkResponse translate), p.1 ∉ r.1 := by
        intro r hr hkr
        rcases List.mem_map.mp hr with ⟨c, hc, rfl⟩
        rw [chunkResponse_fst] at hkr
        obtain ⟨s, hm, ht⟩ := mem_chunk_key_imp m batchSize c hc p.1 hkr
        have h1 := mapGet_mem m p.1 p.2 hnd hpm
        have h2 := mapGet_mem m p.1 (.str s) hnd hm
        rw [h1] at h2
        have : p.2 = .str s := Eq.symm (Option.some.inj h2).symm
        rw [this] at hpv
        simp [isPendingValue, ht] at hpv
      rw [hexec, mergeAll_get_ne _ _ _ hnotin]
      exact mapGet_mem m p.1 p.2 hnd hpm
    · rw [hcalls, ← List.map_flatten,
        chunksOf_flatten (safeBatchSize_pos batchSize) (pendingItems m)]

/-- Witness for C2: the spec scenario: mapping a.b=Hello, c.d=two blanks,
e.f=World, chunk size 2, uppercase stub transform. -/
theorem execute_translation_batches_success_run_witness :
    keysOf (executeTranslationBatches
        [("a.b", .str "Hello"), ("c.d", .str "  "), ("e.f", .str "World")] 2
        (fun l => some (l.map (fun s => s.toUpper))) none)
      = ["a.b", "c.d", "e.f"] ∧
    mapGet (executeTranslationBatches
        [("a.b", .str "Hello"), ("c.d", .str "  "), ("e.f", .str "World")] 2
        (fun l => some (l.map (fun s => s.toUpper))) none) "c.d"
      = some (.str "  ") := by
  have h := execute_translation_batches_success_run
    [("a.b", .str "Hello"), ("c.d", .str "  "), ("e.f", .str "World")] 2
    (fun l => some (l.map (fun s => s.toUpper)))
    (by decide)
    (fun l => ⟨l.map (fun s => s.toUpper), rfl, by simp⟩)
  refine ⟨by rw [h.1]; rfl, ?_⟩
  exact h.2.1 ("c.d", .str "  ") (by simp) (by decide)

/-- C10: when no entry of the input mapping is a non-blank string, the
scheduler returns the input mapping unchanged, with an empty list of remote
submissions (so no network permit is acquired and the client is never
invoked). -/
theorem execute_translation_batches_no_pending_noop (m : Mapping) (batchSize : Nat)
    (translate : List String → Option (List String)) (cancelAt : Option Nat)
    (h : ∀ p ∈ m, isPendingValue p.2 = false) :
    executeTranslationBatchesFull m batchSize translate cancelAt = (m, []) := by
  unfold executeTranslationBatchesFull
  rw [if_pos (by rw [pendingItems_eq_nil m h]; rfl)]

/-- Witness for C10: a mapping holding a blank string and a non-string value
passes through untouched with zero remote submissions. -/
theorem execute_translation_batches_no_pending_noop_witness :
    executeTranslationBatchesFull [("a", .str " "), ("b", .other 7)] 5
      (fun l => some l) none = ([("a", .str " "), ("b", .other 7)], []) := by
  exact execute_translation_batches_no_pending_noop
    [("a", .str " "), ("b", .other 7)] 5 (fun l => some l) none (by decide)

/-! Incremental pipeline: core_translation_pipeline (common.rs lines 311-425). -/

/-- The update-mode resolution loop (common.rs lines 349-364): walks the
source entries threading (pending, base, recovered count); a key already in
the base map is skipped, a key found in the builtin mapping is inserted into
the base map, every other key goes to the pending map with its source
value. -/
def resolveGo (builtin : Mapping) : List (String × JsonValue) →
    Mapping → Mapping → Nat → Mapping × Mapping × Nat
  | [], pending, base, recovered => (pending, base, recovered)
  | kv :: rest, pending, base, recovered =>
    if containsKey base kv.1 then resolveGo builtin rest pending base recovered
    else
      match mapGet builtin kv.1 with
      | some bv => resolveGo builtin rest pending (mapInsert base kv.1 bv) (recovered + 1)
      | none => resolveGo builtin rest (mapInsert pending kv.1 kv.2) base recovered

/-- The update-mode resolution (common.rs lines 337-364): from the source
map, the existing output content and the builtin recovery map, compute
(pending, base, recovered count). -/
def resolveIncremental (srcMap existing builtin : Mapping) : Mapping × Mapping × Nat :=
  resolveGo builtin srcMap [] existing 0

/-- The externally observable outcome of one core_translation_pipeline run:
the map submitted to translation, the artifact content written (none = no
write happened), and whether a raw-content backup was produced. -/
structure PipelineRun where
  pending : Mapping
  written : Option Mapping
  rawBackedUp : Bool
  deriving DecidableEq, Repr

/-- The merge of the translated part into the base map after scheduling
(common.rs lines 411-413). -/
def mergeInto (base translated : Mapping) : Mapping :=
  translated.foldl (fun acc kv => mapInsert acc kv.1 kv.2) base

/-- core_translation_pipeline (common.rs lines 311-425) per artifact.
existingArtifact is the content of the output path (none when the file does
not exist; reading a missing file yields the empty map, common.rs line 254).
The cancellation check after scheduling (line 406) observes the same token
as the dispatch loop, so the run is found cancelled there exactly when
cancelAt is set. -/
def coreTranslationPipeline (srcMap : Mapping) (updateExisting skipExisting : Bool)
    (existingArtifact : Option Mapping) (builtin : Option Mapping)
    (batchSize : Nat) (translate : List String → Option (List String))
    (cancelAt : Option Nat) : PipelineRun :=
  if !updateExisting && skipExisting && existingArtifact.isSome then
    { pending := [], written := none, rawBackedUp := false }
  else if updateExisting then
    let r := resolveIncremental srcMap (existingArtifact.getD []) (builtin.getD [])
    if r.1 = [] ∧ r.2.2 = 0 then
      { pending := r.1, written := none, rawBackedUp := false }
    else
      let translated := executeTranslationBatches r.1 batchSize translate cancelAt
      if cancelAt.isSome then
        { pending := r.1, written := none, rawBackedUp := !r.1.isEmpty }
      else
        { pending := r.1, written := some (mergeInto r.2.1 translated),
          rawBackedUp := !r.1.isEmpty }
  else
    let translated := executeTranslationBatches srcMap batchSize translate cancelAt
    if cancelAt.isSome then
      { pending := srcMap, written := none, rawBackedUp := false }
    else
      { pending := srcMap, written := some (mergeInto [] translated),
        rawBackedUp := false }

/-- C4: cancellation semantics.  Once the token reads cancelled before the
dispatch of chunk c: the submitted batches are exactly the first c of the
uncancelled run (no further chunk is dispatched); chunks dispatched before
the signal are still merged into the output (their successful translations
are present); keys belonging to no dispatched chunk keep their source
values; and a pipeline run found cancelled after scheduling writes no
artifact. -/
theorem cancellation_semantics (m : Mapping) (batchSize : Nat)
    (translate : List String → Option (List String)) (c : Nat)
    (hnd : (keysOf m).Nodup) :
    (executeTranslationBatchesFull m batchSize translate (some c)).2
      = (executeTranslationBatchesFull m batchSize translate none).2.take c ∧
    (executeTranslationBatchesFull m batchSize translate (some c)).2.length ≤ c ∧
    (∀ i : Nat, ∀ chunk : List (String × String),
      (dispatchedChunks m batchSize (some c))[i]? = some chunk →
      ∀ ts, translate (chunk.map (fun u => u.2)) = some ts →
        ∀ hlen : ts.length = chunk.length, ∀ j : Nat, ∀ hj : j < chunk.length,
          mapGet (executeTranslationBatches m batchSize translate (some c))
              (chunk.get ⟨j, hj⟩).1 = some (.str (ts.get ⟨j, by omega⟩))) ∧
    (∀ p ∈ m, p.1 ∉ ((dispatchedChunks m batchSize (some c)).flatten).map (fun u => u.1) →
      mapGet (executeTranslationBatches m batchSize translate (some c)) p.1 = some p.2) ∧
    (∀ updateExisting skipExisting existingArtifact builtin,
      (coreTranslationPipeline m updateExisting skipExisting existingArtifact builtin
        batchSize translate (some c)).written = none) := by
  have hcalls : ∀ ca, (executeTranslationBatchesFull m batchSize translate ca).2
      = (dispatchedChunks m batchSize ca).map (fun ch => ch.map (fun u => u.2)) ∨
      (pendingItems m).length = 0 := by
    intro ca
    by_cases hp : (pendingItems m).length = 0
    · exact Or.inr hp
    · left
      unfold executeTranslationBatchesFull
      rw [if_neg hp]
  refine ⟨?_, ?_, ?_, ?_, ?_⟩
  · by_cases hp : (pendingItems m).length = 0
    · have h1 : executeTranslationBatchesFull m batchSize translate (some c) = (m, []) := by
        unfold executeTranslationBatchesFull
        rw [if_pos hp]
      have h2 : executeTranslationBatchesFull m batchSize translate none = (m, []) := by
        unfold executeTranslationBatchesFull
        rw [if_pos hp]
      rw [h1, h2]
      simp
    · have h1 : (executeTranslationBatchesFull m batchSize translate (some c)).2
          = (dispatchedChunks m batchSize (some c)).map (fun ch => ch.map (fun u => u.2)) := by
        unfold executeTranslationBatchesFull
        rw [if_neg hp]
      have h2 : (executeTranslationBatchesFull m batchSize translate none).2
          = (dispatchedChunks m batchSize none).map (fun ch => ch.map (fun u => u.2)) := by
        unfold executeTranslationBatchesFull
        rw [if_neg hp]
      rw [h1, h2]
      have hd : dispatchedChunks m batchSize (some c)
          = (dispatchedChunks m batchSize none).take c := rfl
      rw [hd, List.map_take]
  · by_cases hp : (pendingItems m).length = 0
    · have h1 : executeTranslationBatchesFull m batchSize translate (some c) = (m, []) := by
        unfold executeTranslationBatchesFull
        rw [if_pos hp]
      rw [h1]
      simp
    · have h1 : (executeTranslationBatchesFull m batchSize translate (some c)).2
          = (dispatchedChunks m batchSize (some c)).map (fun ch => ch.map (fun u => u.2)) := by
        unfold executeTranslationBatchesFull
        rw [if_neg hp]
      rw [h1, List.length_map]
      have hd : dispatchedChunks m batchSize (some c)
          = (dispatchedChunks m batchSize none).take c := rfl
      rw [hd, List.length_take]
      omega
  · intro i chunk hchunk ts hts hlen j hj
    exact (executeTranslationBatches_chunk_spec m batchSize translate (some c)
      hnd i chunk hchunk).1 ts hts hlen j hj
  · intro p hpm hk
    by_cases hp : (pendingItems m).length = 0
    · have h1 : executeTranslationBatches m batchSize translate (some c) = m := by
        unfold executeTranslationBatches executeTranslationBatchesFull
        rw [if_pos hp]
      rw [h1]
      exact mapGet_mem m p.1 p.2 hnd hpm
    · have h1 : executeTranslationBatches m batchSize translate (some c)
          = ((dispatchedChunks m batchSize (some c)).map
              (chunkResponse translate)).foldl mergeChunkResult m := by
        unfold executeTranslationBatches executeTranslationBatchesFull
        rw [if_neg hp]
      rw [h1, mergeAll_get_ne _ _ _ ?_]
      · exact mapGet_mem m p.1 p.2 hnd hpm
      · intro r hr hkr
        rcases List.mem_map.mp hr with ⟨c2, hc2, rfl⟩
        rw [chunkResponse_fst] at hkr
        rcases List.mem_map.mp hkr with ⟨u, hu, hfst⟩
        exact hk (List.mem_map.mpr ⟨u, List.mem_flatten.mpr ⟨c2, hc2, hu⟩, hfst⟩)
  · intro updateExisting skipExisting existingArtifact builtin
    unfold coreTranslationPipeline
    split
    · rfl
    · split
      · split
        · dsimp only
          split <;> rfl
        · exact absurd rfl (by assumption)
      · rfl

/-- Witness for C4: two singleton chunks, cancellation observed before the
second dispatch; the first chunk is still merged and no artifact is
written. -/
theorem cancellation_semantics_witness :
    mapGet (executeTranslationBatches [("a", .str "x"), ("b", .str "y")] 1
      (fun l => some (l.map (fun s => s ++ "!"))) (some 1)) "a" = some (.str "x!") ∧
    (coreTranslationPipeline [("a", .str "x"), ("b", .str "y")] false false none none 1
      (fun l => some (l.map (fun s => s ++ "!"))) (some 1)).written = none := by
  have h := cancellation_semantics [("a", .str "x"), ("b", .str "y")] 1
    (fun l => some (l.map (fun s => s ++ "!"))) 1 (by decide)
  exact ⟨h.2.2.1 0 [("a", "x")] rfl ["x!"] rfl rfl 0 (by decide),
    h.2.2.2.2 false false none none⟩

theorem resolveGo_base_mono (builtin : Mapping) (l : List (String × JsonValue)) :
    ∀ (p base : Mapping) (r : Nat) (k : String), k ∈ keysOf base →
      k ∈ keysOf (resolveGo builtin l p base r).2.1 := by
  induction l with
  | nil => intro p base r k h; exact h
  | cons kv rest ih =>
    intro p base r k h
    rw [resolveGo]
    split
    · exact ih _ _ _ _ h
    · split
      · exact ih _ _ _ _ ((mem_keysOf_insert _ _ _ _).mpr (Or.inl h))
      · exact ih _ _ _ _ h

theorem resolveGo_pending_mono (builtin : Mapping) (l : List (String × JsonValue)) :
    ∀ (p base : Mapping) (r : Nat) (k : String), k ∈ keysOf p →
      k ∈ keysOf (resolveGo builtin l p base r).1 := by
  induction l with
  | nil => intro p base r k h; exact h
  | cons kv rest ih =>
    intro p base r k h
    rw [resolveGo]
    split
    · exact ih _ _ _ _ h
    · split
      · exact ih _ _ _ _ h
      · exact ih _ _ _ _ ((mem_keysOf_insert _ _ _ _).mpr (Or.inl h))

theorem resolveGo_union (builtin : Mapping) (l : List (String × JsonValue)) :
    ∀ (p base : Mapping) (r : Nat), ∀ kv ∈ l,
      kv.1 ∈ keysOf (resolveGo builtin l p base r).1 ∨
      kv.1 ∈ keysOf (resolveGo builtin l p base r).2.1 := by
  induction l with
  | nil => intro p base r kv h; simp at h
  | cons kv0 rest ih =>
    intro p base r kv hkv
    rcases List.mem_cons.mp hkv with rfl | hkv
    · rw [resolveGo]
      split
      · rename_i hcont
        right
        exact resolveGo_base_mono builtin rest _ _ _ _
          ((mapGet_isSome_iff base kv.1).mp hcont)
      · split
        · rename_i bv hb
          right
          exact resolveGo_base_mono builtin rest _ _ _ _
            ((mem_keysOf_insert base kv.1 kv.1 bv).mpr (Or.inr rfl))
        · left
          exact resolveGo_pending_mono builtin rest _ _ _ _
            ((mem_keysOf_insert p kv.1 kv.1 kv.2).mpr (Or.inr rfl))
    · rw [resolveGo]
      split
      · exact ih _ _ _ kv hkv
      · split
        · exact ih _ _ _ kv hkv
        · exact ih _ _ _ kv hkv

theorem resolveGo_base_get (builtin : Mapping) (l : List (String × JsonValue)) :
    ∀ (p base : Mapping) (r : Nat) (k : String), k ∈ keysOf base →
      mapGet (resolveGo builtin l p base r).2.1 k = mapGet base k := by
  induction l with
  | nil => intro p base r k h; rfl
  | cons kv rest ih =>
    intro p base r k h
    rw [resolveGo]
    split
    · exact ih _ _ _ _ h
    · rename_i hcont
      split
      · rename_i bv hb
        have hne : k ≠ kv.1 := by
          intro he
          exact hcont ((mapGet_isSome_iff base kv.1).mpr (he ▸ h))
        rw [ih _ _ _ _ ((mem_keysOf_insert _ _ _ _).mpr (Or.inl h)),
          mapGet_insert_ne base kv.1 k bv hne]
      · exact ih _ _ _ _ h

theorem resolveGo_pending_get (builtin : Mapping) (l : List (String × JsonValue)) :
    ∀ (p base : Mapping) (r : Nat) (k : String), (∀ kv ∈ l, kv.1 ≠ k) →
      mapGet (resolveGo builtin l p base r).1 k = mapGet p k := by
  induction l with
  | nil => intro p base r k _; rfl
  | cons kv rest ih =>
    intro p base r k h
    have hrest : ∀ q ∈ rest, q.1 ≠ k := fun q hq => h q (List.mem_cons_of_mem kv hq)
    rw [resolveGo]
    split
    · exact ih _ _ _ _ hrest
    · split
      · exact ih _ _ _ _ hrest
      · rw [ih _ _ _ _ hrest,
          mapGet_insert_ne p kv.1 k kv.2 (fun he => h kv (List.mem_cons_self kv rest) he.symm)]

theorem resolveGo_recovered_mono (builtin : Mapping) (l : List (String × JsonValue)) :
    ∀ (p base : Mapping) (r : Nat), r ≤ (resolveGo builtin l p base r).2.2 := by
  induction l with
  | nil => intro p base r; exact Nat.le_refl r
  | cons kv rest ih =>
    intro p base r
    rw [resolveGo]
    split
    · exact ih _ _ _
    · split
      · exact Nat.le_trans (Nat.le_succ r) (ih _ _ _)
      · exact ih _ _ _

theorem resolveGo_base_of_no_recovery (builtin : Mapping) (l : List (String × JsonValue)) :
    ∀ (p base : Mapping) (r : Nat), (resolveGo builtin l p base r).2.2 = r →
      (resolveGo builtin l p base r).2.1 = base := by
  induction l with
  | nil => intro p base r _; rfl
  | cons kv rest ih =>
    intro p base r hr
    by_cases hcont : containsKey base kv.1 = true
    · rw [resolveGo, if_pos hcont] at hr ⊢
      exact ih _ _ _ hr
    · cases hb : mapGet builtin kv.1 with
      | some bv =>
        rw [resolveGo, if_neg hcont] at hr
        simp only [hb] at hr
        exfalso
        have := resolveGo_recovered_mono builtin rest p (mapInsert base kv.1 bv) (r + 1)
        omega
      | none =>
        rw [resolveGo, if_neg hcont] at hr ⊢
        simp only [hb] at hr ⊢
        exact ih _ _ _ hr

theorem resolveGo_all_contained (builtin : Mapping) (l : List (String × JsonValue)) :
    ∀ (p base : Mapping) (r : Nat), (∀ kv ∈ l, containsKey base kv.1 = true) →
      resolveGo builtin l p base r = (p, base, r) := by
  induction l with
  | nil => intro p base r _; rfl
  | cons kv rest ih =>
    intro p base r h
    rw [resolveGo, if_pos (h kv (List.mem_cons_self kv rest))]
    exact ih _ _ _ (fun q hq => h q (List.mem_cons_of_mem kv hq))

theorem resolveGo_disjoint (builtin : Mapping) (l : List (String × JsonValue)) :
    ∀ (p base : Mapping) (r : Nat),
      (l.map (fun q => q.1)).Nodup →
      (∀ k ∈ keysOf p, k ∉ keysOf base) →
      (∀ k ∈ keysOf p, k ∉ l.map (fun q => q.1)) →
      ∀ k ∈ keysOf (resolveGo builtin l p base r).1,
        k ∉ keysOf (resolveGo builtin l p base r).2.1 := by
  induction l with
  | nil => intro p base r _ hdisj _ k hk; exact hdisj k hk
  | cons kv rest ih =>
    intro p base r hnodup hdisj hfresh k hk
    simp only [List.map_cons, List.nodup_cons] at hnodup
    by_cases hcont : containsKey base kv.1 = true
    · rw [resolveGo, if_pos hcont] at hk ⊢
      exact ih p base r hnodup.2 hdisj
        (fun k2 hk2 hmem => hfresh k2 hk2 (List.mem_cons_of_mem _ hmem)) k hk
    · cases hb : mapGet builtin kv.1 with
      | some bv =>
        rw [resolveGo, if_neg hcont] at hk ⊢
        simp only [hb] at hk ⊢
        refine ih p (mapInsert base kv.1 bv) (r + 1) hnodup.2 ?_ ?_ k hk
        · intro k2 hk2 hmem
          rcases (mem_keysOf_insert base kv.1 k2 bv).mp hmem with hmem | rfl
          · exact hdisj k2 hk2 hmem
          · exact hfresh kv.1 hk2 (List.mem_cons_self _ _)
        · intro k2 hk2 hmem
          exact hfresh k2 hk2 (List.mem_cons_of_mem _ hmem)
      | none =>
        rw [resolveGo, if_neg hcont] at hk ⊢
        simp only [hb] at hk ⊢
        refine ih (mapInsert p kv.1 kv.2) base r hnodup.2 ?_ ?_ k hk
        · intro k2 hk2 hmem
          rcases (mem_keysOf_insert p kv.1 k2 kv.2).mp hk2 with hk2 | rfl
          · exact hdisj k2 hk2 hmem
          · exact hcont ((mapGet_isSome_iff base kv.1).mpr hmem)
        · intro k2 hk2 hmem
          rcases (mem_keysOf_insert p kv.1 k2 kv.2).mp hk2 with hk2 | rfl
          · exact hfresh k2 hk2 (List.mem_cons_of_mem _ hmem)
          · exact hnodup.1 hmem

theorem resolveGo_pending_nodup (builtin : Mapping) (l : List (String × JsonValue)) :
    ∀ (p base : Mapping) (r : Nat),
      (l.map (fun q => q.1)).Nodup →
      (∀ k ∈ keysOf p, k ∉ l.map (fun q => q.1)) →
      (keysOf p).Nodup →
      (keysOf (resolveGo builtin l p base r).1).Nodup := by
  induction l with
  | nil => intro p base r _ _ hp; exact hp
  | cons kv rest ih =>
    intro p base r hnodup hfresh hp
    simp only [List.map_cons, List.nodup_cons] at hnodup
    rw [resolveGo]
    split
    · exact ih p base r hnodup.2
        (fun k2 hk2 hmem => hfresh k2 hk2 (List.mem_cons_of_mem _ hmem)) hp
    · split
      · exact ih p _ _ hnodup.2
          (fun k2 hk2 hmem => hfresh k2 hk2 (List.mem_cons_of_mem _ hmem)) hp
      · refine ih (mapInsert p kv.1 kv.2) base r hnodup.2 ?_
          (nodup_keysOf_insert p kv.1 kv.2 hp)
        intro k2 hk2 hmem
        rcases (mem_keysOf_insert p kv.1 k2 kv.2).mp hk2 with hk2 | rfl
        · exact hfresh k2 hk2 (List.mem_cons_of_mem _ hmem)
        · exact hnodup.1 hmem

theorem resolveGo_base_recover (builtin : Mapping) (l : List (String × JsonValue)) :
    ∀ (p base : Mapping) (r : Nat),
      (l.map (fun q => q.1)).Nodup →
      ∀ kv ∈ l, kv.1 ∉ keysOf base → ∀ bv, mapGet builtin kv.1 = some bv →
      mapGet (resolveGo builtin l p base r).2.1 kv.1 = some bv := by
  induction l with
  | nil => intro p base r _ kv h; simp at h
  | cons kv0 rest ih =>
    intro p base r hnodup kv hkv hnb bv hbv
    simp only [List.map_cons, List.nodup_cons] at hnodup
    rcases List.mem_cons.mp hkv with rfl | hkv
    · have hcont : ¬ containsKey base kv.1 = true := fun hcont =>
        hnb ((mapGet_isSome_iff base kv.1).mp hcont)
      rw [resolveGo, if_neg hcont]
      simp only [hbv]
      rw [resolveGo_base_get builtin rest _ _ _ kv.1
        ((mem_keysOf_insert base kv.1 kv.1 bv).mpr (Or.inr rfl))]
      exact mapGet_insert_self base kv.1 bv
    · rw [resolveGo]
      split
      · exact ih _ _ _ hnodup.2 kv hkv hnb bv hbv
      · split
        · rename_i bv0 hb0
          refine ih _ _ _ hnodup.2 kv hkv ?_ bv hbv
          intro hmem
          rcases (mem_keysOf_insert base kv0.1 kv.1 bv0).mp hmem with hmem | he
          · exact hnb hmem
          · exact hnodup.1 (he ▸ List.mem_map.mpr ⟨kv, hkv, rfl⟩)
        · exact ih _ _ _ hnodup.2 kv hkv hnb bv hbv

theorem mem_keysOf_mergeInto (t : Mapping) :
    ∀ (base : Mapping) (k : String), k ∈ keysOf base ∨ k ∈ keysOf t →
      k ∈ keysOf (mergeInto base t) := by
  induction t with
  | nil =>
    intro base k h
    rcases h with h | h
    · exact h
    · simp [keysOf] at h
  | cons kv rest ih =>
    intro base k h
    unfold mergeInto
    simp only [List.foldl_cons]
    show k ∈ keysOf (mergeInto (mapInsert base kv.1 kv.2) rest)
    apply ih
    rcases h with h | h
    · exact Or.inl ((mem_keysOf_insert _ _ _ _).mpr (Or.inl h))
    · simp only [keysOf, List.map_cons, List.mem_cons] at h
      rcases h with rfl | h
      · exact Or.inl ((mem_keysOf_insert _ _ _ _).mpr (Or.inr rfl))
      · exact Or.inr h

theorem keysOf_exec_success (m : Mapping) (batchSize : Nat)
    (translate : List String → Option (List String))
    (htr : ∀ l, ∃ ts, translate l = some ts ∧ ts.length = l.length) :
    keysOf (executeTranslationBatches m batchSize translate none) = keysOf m := by
  by_cases hp : (pendingItems m).length = 0
  · have hexec : executeTranslationBatches m batchSize translate none = m := by
      unfold executeTranslationBatches executeTranslationBatchesFull
      rw [if_pos hp]
    rw [hexec]
  · have hexec : executeTranslationBatches m batchSize translate none
        = ((chunksOf (safeBatchSize batchSize) (pendingItems m)).map
            (chunkResponse translate)).foldl mergeChunkResult m := by
      unfold executeTranslationBatches executeTranslationBatchesFull
      rw [if_neg hp]
      rfl
    rw [hexec]
    apply keysOf_mergeAll_success
    intro r hr
    rcases List.mem_map.mp hr with ⟨c, hc, rfl⟩
    constructor
    · obtain ⟨ts, hts, hlen⟩ := htr (c.map (fun u => u.2))
      refine ⟨ts, ?_⟩
      unfold chunkResponse
      rw [hts]
      simp only [List.length_map] at hlen
      simp [hlen]
    · intro k hk
      rw [chunkResponse_fst] at hk
      obtain ⟨s, hm, _⟩ := mem_chunk_key_imp m batchSize c hc k hk
      exact List.mem_map.mpr ⟨(k, .str s), hm, rfl⟩

theorem resolveGo_pending_new (builtin : Mapping) (l : List (String × JsonValue)) :
    ∀ (p base : Mapping) (r : Nat),
      (l.map (fun q => q.1)).Nodup →
      ∀ kv ∈ l, kv.1 ∉ keysOf base → mapGet builtin kv.1 = none →
        mapGet (resolveGo builtin l p base r).1 kv.1 = some kv.2 := by
  induction l with
  | nil => intro p base r _ kv h; simp at h
  | cons kv0 rest ih =>
    intro p base r hnodup kv hkv hnb hbn
    simp only [List.map_cons, List.nodup_cons] at hnodup
    rcases List.mem_cons.mp hkv with rfl | hkv
    · have hcont : ¬ containsKey base kv.1 = true := fun hcont =>
        hnb ((mapGet_isSome_iff base kv.1).mp hcont)
      rw [resolveGo, if_neg hcont]
      simp only [hbn]
      rw [resolveGo_pending_get builtin rest _ _ _ kv.1
        (fun q hq he => hnodup.1 (he ▸ List.mem_map.mpr ⟨q, hq, rfl⟩))]
      exact mapGet_insert_self p kv.1 kv.2
    · by_cases hcont : containsKey base kv0.1 = true
      · rw [resolveGo, if_pos hcont]
        exact ih _ _ _ hnodup.2 kv hkv hnb hbn
      · cases hb : mapGet builtin kv0.1 with
        | some bv =>
          rw [resolveGo, if_neg hcont]
          simp only [hb]
          refine ih _ _ _ hnodup.2 kv hkv ?_ hbn
          intro hmem
          rcases (mem_keysOf_insert base kv0.1 kv.1 bv).mp hmem with hmem | he
          · exact hnb hmem
          · exact hnodup.1 (he ▸ List.mem_map.mpr ⟨kv, hkv, rfl⟩)
        | none =>
          rw [resolveGo, if_neg hcont]
          simp only [hb]
          exact ih _ _ _ hnodup.2 kv hkv hnb hbn

/-- C6: incremental-mode resolution invariant.  After resolving an artifact:
the pending key set and the base map key set are disjoint; their union
contains every source key whose value is a non-empty string; a source key
already present in the existing output keeps its existing value in the base
map; a source key absent from the existing output but present in the
builtin-recovery mapping is merged into the base map with the builtin value
and never enters the pending set (no translation call for it); every
remaining source key lands in the pending set with its source value. -/
theorem resolve_incremental_invariant (srcMap existing builtin : Mapping)
    (hnd : (keysOf srcMap).Nodup) :
    (∀ k ∈ keysOf (resolveIncremental srcMap existing builtin).1,
      k ∉ keysOf (resolveIncremental srcMap existing builtin).2.1) ∧
    (∀ kv ∈ srcMap, isPendingValue kv.2 = true →
      kv.1 ∈ keysOf (resolveIncremental srcMap existing builtin).1 ∨
      kv.1 ∈ keysOf (resolveIncremental srcMap existing builtin).2.1) ∧
    (∀ k ∈ keysOf existing,
      k ∈ keysOf (resolveIncremental srcMap existing builtin).2.1 ∧
      mapGet (resolveIncremental srcMap existing builtin).2.1 k = mapGet existing k) ∧
    (∀ kv ∈ srcMap, kv.1 ∉ keysOf existing → ∀ bv, mapGet builtin kv.1 = some bv →
      mapGet (resolveIncremental srcMap existing builtin).2.1 kv.1 = some bv ∧
      kv.1 ∉ keysOf (resolveIncremental srcMap existing builtin).1) ∧
    (∀ kv ∈ srcMap, kv.1 ∉ keysOf existing → mapGet builtin kv.1 = none →
      mapGet (resolveIncremental srcMap existing builtin).1 kv.1 = some kv.2) := by
  have hkeys : keysOf srcMap = srcMap.map (fun q => q.1) := rfl
  have hdisj := resolveGo_disjoint builtin srcMap [] existing 0
    (hkeys ▸ hnd) (by intro k hk; simp [keysOf] at hk) (by intro k hk; simp [keysOf] at hk)
  refine ⟨hdisj, ?_, ?_, ?_, ?_⟩
  · intro kv hkv _
    exact resolveGo_union builtin srcMap [] existing 0 kv hkv
  · intro k hk
    exact ⟨resolveGo_base_mono builtin srcMap [] existing 0 k hk,
      resolveGo_base_get builtin srcMap [] existing 0 k hk⟩
  · intro kv hkv hne bv hbv
    have hget := resolveGo_base_recover builtin srcMap [] existing 0
      (hkeys ▸ hnd) kv hkv hne bv hbv
    refine ⟨hget, fun hp => ?_⟩
    exact hdisj kv.1 hp ((mapGet_isSome_iff _ kv.1).mp (by rw [hget]; rfl))
  · intro kv hkv hne hbn
    exact resolveGo_pending_new builtin srcMap [] existing 0 (hkeys ▸ hnd) kv hkv hne hbn

/-- Witness for C6: source keys a (already translated), b (recoverable from
the builtin mapping) and c (genuinely new). -/
theorem resolve_incremental_invariant_witness :
    mapGet (resolveIncremental
        [("a", .str "x"), ("b", .str "y"), ("c", .str "z")]
        [("a", .str "A")] [("b", .str "B")]).2.1 "b" = some (.str "B") ∧
    "b" ∉ keysOf (resolveIncremental
        [("a", .str "x"), ("b", .str "y"), ("c", .str "z")]
        [("a", .str "A")] [("b", .str "B")]).1 ∧
    mapGet (resolveIncremental
        [("a", .str "x"), ("b", .str "y"), ("c", .str "z")]
        [("a", .str "A")] [("b", .str "B")]).1 "c" = some (.str "z") := by
  have h := resolve_incremental_invariant
    [("a", .str "x"), ("b", .str "y"), ("c", .str "z")]
    [("a", .str "A")] [("b", .str "B")] (by decide)
  have hb := h.2.2.2.1 ("b", .str "y") (by simp) (by decide) (.str "B") (by decide)
  have hc := h.2.2.2.2 ("c", .str "z") (by simp) (by decide) (by decide)
  exact ⟨hb.1, hb.2, hc⟩

/-- C7: idempotence of incremental mode.  Running update mode twice on the
same source mapping with an always-successful stub transform: the second run
(reading back whatever the first run wrote, or the untouched artifact when
the first run wrote nothing) computes an empty pending set and writes
nothing, so it makes no remote calls and leaves the output artifact
untouched. -/
theorem incremental_mode_idempotent (srcMap : Mapping) (skipExisting : Bool)
    (existingArtifact builtin : Option Mapping) (batchSize : Nat)
    (translate : List String → Option (List String))
    (hnd : (keysOf srcMap).Nodup)
    (htr : ∀ l, ∃ ts, translate l = some ts ∧ ts.length = l.length) :
    (coreTranslationPipeline srcMap true skipExisting
      (Option.or (coreTranslationPipeline srcMap true skipExisting existingArtifact
        builtin batchSize translate none).written existingArtifact)
      builtin batchSize translate none).pending = [] ∧
    (coreTranslationPipeline srcMap true skipExisting
      (Option.or (coreTranslationPipeline srcMap true skipExisting existingArtifact
        builtin batchSize translate none).written existingArtifact)
      builtin batchSize translate none).written = none := by
  have hkeys : keysOf srcMap = srcMap.map (fun q => q.1) := rfl
  have hpipe : ∀ ea : Option Mapping,
      coreTranslationPipeline srcMap true skipExisting ea builtin batchSize translate none
      = if (resolveIncremental srcMap (ea.getD []) (builtin.getD [])).1 = [] ∧
            (resolveIncremental srcMap (ea.getD []) (builtin.getD [])).2.2 = 0 then
          { pending := (resolveIncremental srcMap (ea.getD []) (builtin.getD [])).1,
            written := none, rawBackedUp := false }
        else
          { pending := (resolveIncremental srcMap (ea.getD []) (builtin.getD [])).1,
            written := some (mergeInto
              (resolveIncremental srcMap (ea.getD []) (builtin.getD [])).2.1
              (executeTranslationBatches
                (resolveIncremental srcMap (ea.getD []) (builtin.getD [])).1
                batchSize translate none)),
            rawBackedUp :=
              !(resolveIncremental srcMap (ea.getD []) (builtin.getD [])).1.isEmpty } :=
    fun ea => rfl
  have hrun2 : ∀ ea : Option Mapping,
      (∀ kv ∈ srcMap, containsKey (ea.getD []) kv.1 = true) →
      (coreTranslationPipeline srcMap true skipExisting ea builtin batchSize
          translate none).pending = [] ∧
      (coreTranslationPipeline srcMap true skipExisting ea builtin batchSize
          translate none).written = none := by
    intro ea hall
    have hres : resolveIncremental srcMap (ea.getD []) (builtin.getD [])
        = ([], ea.getD [], 0) :=
      resolveGo_all_contained (builtin.getD []) srcMap [] (ea.getD []) 0 hall
    rw [hpipe ea, hres]
    simp
  by_cases hni : (resolveIncremental srcMap (existingArtifact.getD [])
        (builtin.getD [])).1 = [] ∧
      (resolveIncremental srcMap (existingArtifact.getD []) (builtin.getD [])).2.2 = 0
  · have hw1 : (coreTranslationPipeline srcMap true skipExisting existingArtifact
        builtin batchSize translate none).written = none := by
      rw [hpipe existingArtifact, if_pos hni]
    rw [hw1]
    have hor : Option.or (none : Option Mapping) existingArtifact = existingArtifact := rfl
    rw [hor]
    rw [hpipe existingArtifact, if_pos hni]
    exact ⟨hni.1, rfl⟩
  · have hbase0 := resolveGo_base_of_no_recovery (builtin.getD []) srcMap []
      (existingArtifact.getD []) 0
    have hw1 : (coreTranslationPipeline srcMap true skipExisting existingArtifact
        builtin batchSize translate none).written
        = some (mergeInto
            (resolveIncremental srcMap (existingArtifact.getD [])
              (builtin.getD [])).2.1
            (executeTranslationBatches
              (resolveIncremental srcMap (existingArtifact.getD [])
                (builtin.getD [])).1 batchSize translate none)) := by
      rw [hpipe existingArtifact, if_neg hni]
    rw [hw1]
    apply hrun2
    intro kv hkv
    apply (mapGet_isSome_iff _ kv.1).mpr
    show kv.1 ∈ keysOf (mergeInto _ _)
    apply mem_keysOf_mergeInto
    have hkeq := keysOf_exec_success
      (resolveIncremental srcMap (existingArtifact.getD []) (builtin.getD [])).1
      batchSize translate htr
    rcases resolveGo_union (builtin.getD []) srcMap [] (existingArtifact.getD []) 0
      kv hkv with hu | hu
    · right
      rw [hkeq]
      exact hu
    · left
      exact hu

/-- Witness for C7: one fresh source key, no existing output, no builtin
recovery, identity stub transform. -/
theorem incremental_mode_idempotent_witness :
    (coreTranslationPipeline [("a", .str "x")] true false
      (Option.or (coreTranslationPipeline [("a", .str "x")] true false none
        none 1 (fun l => some l) none).written none)
      none 1 (fun l => some l) none).pending = [] ∧
    (coreTranslationPipeline [("a", .str "x")] true false
      (Option.or (coreTranslationPipeline [("a", .str "x")] true false none
        none 1 (fun l => some l) none).written none)
      none 1 (fun l => some l) none).written = none := by
  exact incremental_mode_idempotent [("a", .str "x")] false none none 1
    (fun l => some l) (by decide) (fun l => ⟨l, rfl, rfl⟩)

/-- C8: chunk partitioning.  A chunk size of zero falls back to 20; the
effective chunk size is always positive, so no zero-sized chunk exists; the
N filtered pending units are partitioned into ceil(N / chunkSize) ordered
chunks, each of length at most chunkSize and non-empty, whose concatenation
is exactly the pending list (so membership and order are preserved). -/
theorem chunk_partitioning (m : Mapping) (batchSize : Nat) :
    safeBatchSize 0 = 20 ∧
    0 < safeBatchSize batchSize ∧
    (chunksOf (safeBatchSize batchSize) (pendingItems m)).length
      = ((pendingItems m).length + safeBatchSize batchSize - 1)
        / safeBatchSize batchSize ∧
    (chunksOf (safeBatchSize batchSize) (pendingItems m)).flatten = pendingItems m ∧
    (∀ c ∈ chunksOf (safeBatchSize batchSize) (pendingItems m),
      c.length ≤ safeBatchSize batchSize ∧ c ≠ []) := by
  have hn := safeBatchSize_pos batchSize
  exact ⟨rfl, hn, chunksOf_length hn _, chunksOf_flatten hn _, chunksOf_mem hn _⟩

/-- Witness for C8: three pending units with chunk size 2 yield two chunks;
the first chunk respects the size bound and is non-empty. -/
theorem chunk_partitioning_witness :
    (chunksOf (safeBatchSize 2) (pendingItems
      [("a", .str "x"), ("b", .str "y"), ("c", .str "z")])).length = 2 ∧
    [("a", "x"), ("b", "y")].length ≤ safeBatchSize 2 ∧
    [("a", "x"), ("b", "y")] ≠ [] := by
  have h := chunk_partitioning [("a", .str "x"), ("b", .str "y"), ("c", .str "z")] 2
  refine ⟨?_, h.2.2.2.2 [("a", "x"), ("b", "y")] (by decide)⟩
  rw [h.2.2.1]
  rfl

/-! Retry engine: send_with_retry (src/logic/openai.rs, lines 40-124). -/

/-- Rust u64 parsing of the Retry-After header (openai.rs line 83): an
optional leading plus sign, then one or more decimal digits, rejected when
the value does not fit in 64 bits. -/
def parseU64 (s : String) : Option Nat :=
  let cs := match s.toList with
    | '+' :: rest => rest
    | l => l
  if cs.isEmpty then none
  else if cs.all Char.isDigit then
    let n := cs.foldl (fun acc c => acc * 10 + (c.toNat - 48)) 0
    if n < 2 ^ 64 then some n else none
  else none

/-- The observation of one attempt: an HTTP response with its status and
optional Retry-After header, or a network-level error. -/
inductive HttpOutcome where
  | response (status : Nat) (retryAfter : Option String)
  | networkError
  deriving DecidableEq, Repr

/-- What one loop iteration of send_with_retry decides. -/
inductive RetryDecision where
  | success
  | failFast
  | failOther
  | exhausted
  | retryWait (seconds : Nat)
  deriving DecidableEq, Repr

/-- One iteration of send_with_retry (openai.rs lines 60-120): 2xx succeeds;
401/400 fail immediately; then the retry budget is checked; 429 waits the
parsed Retry-After value when present and parseable, otherwise
retryDelay * 2 ^ attempt; 5xx waits a flat retryDelay; any other status
fails; a network error waits 2 ^ attempt seconds within the same budget. -/
def classifyAttempt (maxRetries retryDelay attempt : Nat) :
    HttpOutcome → RetryDecision
  | .response status retryAfter =>
    if 200 ≤ status ∧ status ≤ 299 then .success
    else if status = 401 ∨ status = 400 then .failFast
    else if maxRetries ≤ attempt then .exhausted
    else if status = 429 then
      match retryAfter with
      | some h =>
        match parseU64 h with
        | some secs => .retryWait secs
        | none => .retryWait (retryDelay * 2 ^ attempt)
      | none => .retryWait (retryDelay * 2 ^ attempt)
    else if 500 ≤ status ∧ status ≤ 599 then .retryWait retryDelay
    else .failOther
  | .networkError =>
    if maxRetries ≤ attempt then .exhausted
    else .retryWait (2 ^ attempt)

/-- The terminal outcome of the retry loop, carrying the attempt index at
which it stopped. -/
inductive RetryResult where
  | ok (attempt : Nat)
  | apiError (attempt : Nat)
  | requestFailed (attempt : Nat)
  | retriesExhausted (attempt : Nat)
  | outOfTrace
  deriving DecidableEq, Repr

/-- send_with_retry (openai.rs lines 40-124) over a trace listing the
outcome of each successive attempt: returns the terminal result and the
list of backoff waits slept, in order.  Cancellation is modelled as never
signalled here; it only short-circuits the loop and is orthogonal to the
classification this claim describes. -/
def sendWithRetry (maxRetries retryDelay : Nat) :
    Nat → List HttpOutcome → RetryResult × List Nat
  | _, [] => (.outOfTrace, [])
  | attempt, o :: rest =>
    match classifyAttempt maxRetries retryDelay attempt o with
    | .success => (.ok attempt, [])
    | .failFast => (.apiError attempt, [])
    | .failOther => (.requestFailed attempt, [])
    | .exhausted => (.retriesExhausted attempt, [])
    | .retryWait w =>
      let r := sendWithRetry maxRetries retryDelay (attempt + 1) rest
      (r.1, w :: r.2)

theorem sendWithRetry_networkError_exhausts (maxRetries retryDelay : Nat) :
    ∀ (k attempt : Nat), attempt ≤ maxRetries → maxRetries < attempt + k →
      (sendWithRetry maxRetries retryDelay attempt
        (List.replicate k HttpOutcome.networkError)).1
        = RetryResult.retriesExhausted maxRetries := by
  intro k
  induction k with
  | zero => intro attempt h1 h2; omega
  | succ k ih =>
    intro attempt h1 h2
    rw [List.replicate_succ, sendWithRetry]
    by_cases hc : maxRetries ≤ attempt
    · have ha : attempt = maxRetries := by omega
      subst ha
      have hcl : classifyAttempt attempt retryDelay attempt .networkError
          = .exhausted := by
        unfold classifyAttempt
        rw [if_pos hc]
      rw [hcl]
    · have hcl : classifyAttempt maxRetries retryDelay attempt .networkError
          = .retryWait (2 ^ attempt) := by
        unfold classifyAttempt
        rw [if_neg hc]
      rw [hcl]
      exact ih (attempt + 1) (by omega) (by omega)

/-- C3: retry classification of send_with_retry.  401 and 400 fail
immediately with no retry; within the retry budget a 429 waits the parsed
Retry-After seconds when the header is present and parseable and
retryDelay * 2 ^ attempt otherwise, a 5xx waits a flat retryDelay, and a
network error waits 2 ^ attempt seconds; once the attempt count reaches
maxRetries every retrying class fails with the retries-exhausted error, and
a trace of more than maxRetries network errors ends in the
retries-exhausted result. -/
theorem send_with_retry_classification (maxRetries retryDelay attempt status : Nat)
    (retryAfter : Option String) :
    (classifyAttempt maxRetries retryDelay attempt (.response 401 retryAfter)
        = .failFast ∧
      classifyAttempt maxRetries retryDelay attempt (.response 400 retryAfter)
        = .failFast) ∧
    (attempt < maxRetries →
      (∀ h secs, retryAfter = some h → parseU64 h = some secs →
        classifyAttempt maxRetries retryDelay attempt (.response 429 retryAfter)
          = .retryWait secs) ∧
      (∀ h, retryAfter = some h → parseU64 h = none →
        classifyAttempt maxRetries retryDelay attempt (.response 429 retryAfter)
          = .retryWait (retryDelay * 2 ^ attempt)) ∧
      (retryAfter = none →
        classifyAttempt maxRetries retryDelay attempt (.response 429 retryAfter)
          = .retryWait (retryDelay * 2 ^ attempt))) ∧
    (attempt < maxRetries → 500 ≤ status → status ≤ 599 →
      classifyAttempt maxRetries retryDelay attempt (.response status retryAfter)
        = .retryWait retryDelay) ∧
    (attempt < maxRetries →
      classifyAttempt maxRetries retryDelay attempt .networkError
        = .retryWait (2 ^ attempt)) ∧
    (maxRetries ≤ attempt → ¬(200 ≤ status ∧ status ≤ 299) →
      status ≠ 401 → status ≠ 400 →
      classifyAttempt maxRetries retryDelay attempt (.response status retryAfter)
        = .exhausted) ∧
    (maxRetries ≤ attempt →
      classifyAttempt maxRetries retryDelay attempt .networkError = .exhausted) ∧
    (∀ k, maxRetries < k →
      (sendWithRetry maxRetries retryDelay 0
        (List.replicate k HttpOutcome.networkError)).1
        = .retriesExhausted maxRetries) := by
  refine ⟨⟨?_, ?_⟩, ?_, ?_, ?_, ?_, ?_, ?_⟩
  · simp only [classifyAttempt]
    rw [if_neg (by decide), if_pos (by decide)]
  · simp only [classifyAttempt]
    rw [if_neg (by decide), if_pos (by decide)]
  · intro hlt
    have hbudget : ¬ maxRetries ≤ attempt := by omega
    refine ⟨?_, ?_, ?_⟩
    · intro h secs hh hp
      subst hh
      simp only [classifyAttempt]
      rw [if_neg (by decide), if_neg (by decide), if_neg hbudget, if_pos trivial, hp]
    · intro h hh hp
      subst hh
      simp only [classifyAttempt]
      rw [if_neg (by decide), if_neg (by decide), if_neg hbudget, if_pos trivial, hp]
    · intro hh
      subst hh
      simp only [classifyAttempt]
      rw [if_neg (by decide), if_neg (by decide), if_neg hbudget, if_pos trivial]
  · intro hlt h5 h6
    have hbudget : ¬ maxRetries ≤ attempt := by omega
    simp only [classifyAttempt]
    rw [if_neg (by omega), if_neg (by omega), if_neg hbudget,
      if_neg (by omega), if_pos (by omega)]
  · intro hlt
    simp only [classifyAttempt]
    rw [if_neg (by omega)]
  · intro hge hns h1 h0
    simp only [classifyAttempt]
    rw [if_neg hns, if_neg (by omega), if_pos hge]
  · intro hge
    simp only [classifyAttempt]
    rw [if_pos hge]
  · intro k hk
    exact sendWithRetry_networkError_exhausts maxRetries retryDelay k 0
      (Nat.zero_le _) (by omega)

/-- Witness for C3: maxRetries 3, base delay 2, attempt 1: a 429 with header
value 2 waits 2 seconds, a 503 waits the flat base delay, and four straight
network errors exhaust the retries. -/
theorem send_with_retry_classification_witness :
    classifyAttempt 3 2 1 (.response 429 (some "2")) = .retryWait 2 ∧
    classifyAttempt 3 2 1 (.response 503 (some "2")) = .retryWait 2 ∧
    classifyAttempt 3 2 1 (.response 401 (some "2")) = .failFast ∧
    (sendWithRetry 3 2 0 (List.replicate 4 HttpOutcome.networkError)).1
      = .retriesExhausted 3 := by
  have h := send_with_retry_classification 3 2 1 503 (some "2")
  exact ⟨(h.2.1 (by omega)).1 "2" 2 rfl (by decide),
    h.2.2.1 (by omega) (by omega) (by omega),
    h.1.1,
    h.2.2.2.2.2.2 4 (by omega)⟩

/-! Structured-text splice: process_snbt (src/logic/formats/snbt.rs,
lines 123-136).  Documents are modelled as character sequences and spans as
character ranges; the splice algorithm is byte-for-byte the same shape. -/

/-- One lowercase hex digit, as serde_json prints control escapes. -/
def hexDigit (n : Nat) : Char :=
  if n < 10 then Char.ofNat (48 + n) else Char.ofNat (87 + n)

/-- serde_json escaping of one character inside a string literal. -/
def jsonEscapeChar (c : Char) : List Char :=
  if c = '"' then ['\\', '"']
  else if c = '\\' then ['\\', '\\']
  else if c = Char.ofNat 8 then ['\\', 'b']
  else if c = '\t' then ['\\', 't']
  else if c = '\n' then ['\\', 'n']
  else if c = Char.ofNat 12 then ['\\', 'f']
  else if c = '\r' then ['\\', 'r']
  else if c.toNat < 32 then
    '\\' :: 'u' :: '0' :: '0' :: hexDigit (c.toNat / 16) :: [hexDigit (c.toNat % 16)]
  else [c]

/-- serde_json::to_string of a string value: the quoted escaped form
(snbt.rs line 129). -/
def jsonEscapeString (s : String) : List Char :=
  '"' :: (s.toList.map jsonEscapeChar).flatten ++ ['"']

/-- Rust String::replace_range over character offsets. -/
def replaceRange (content : List Char) (start stop : Nat) (repl : List Char) :
    List Char :=
  content.take start ++ repl ++ content.drop stop

/-- A recorded span: the range [start, stop) and the synthetic key the span
was extracted under. -/
abbrev SnbtSpan := (Nat × Nat) × String

/-- Insertion into a start-descending list, modelling the stable
sort_by(|a, b| b.0.start.cmp(&a.0.start)) at snbt.rs line 124. -/
def insertByStartDesc (x : SnbtSpan) : List SnbtSpan → List SnbtSpan
  | [] => [x]
  | y :: ys => if y.1.1 < x.1.1 then x :: y :: ys else y :: insertByStartDesc x ys

/-- Sort the recorded spans by start offset, descending. -/
def sortByStartDesc : List SnbtSpan → List SnbtSpan
  | [] => []
  | x :: xs => insertByStartDesc x (sortByStartDesc xs)

/-- The splice loop of process_snbt (snbt.rs lines 123-136): process spans
in descending start order; when the translated map holds a string for a
span's key, JSON-escape it and, if the escaped form has at least two
characters, splice its interior (the escaped text without the surrounding
quotes) over the span's range; otherwise leave the text unchanged. -/
def process_snbt_splice (content : List Char) (replacements : List SnbtSpan)
    (translatedMap : Mapping) : List Char :=
  (sortByStartDesc replacements).foldl
    (fun cont r =>
      match mapGet translatedMap r.2 with
      | some (.str t) =>
        let esc := jsonEscapeString t
        if 2 ≤ esc.length then
          replaceRange cont r.1.1 r.1.2 ((esc.drop 1).dropLast)
        else cont
      | _ => cont)
    content

/-- C5 (code bug): the guard at snbt.rs line 131, annotated with the comment
that a replacement happens only when the translation result is non-empty,
tests the length of the JSON-escaped string, which is at least 2 (the two
quotes) for every string including the empty one.  A span whose translation
is the empty string is therefore spliced away instead of being left
untouched: on document abc with the single span [0, 1) keyed 0 and the
translation map sending 0 to the empty string, the output drops the first
character, while spans with genuinely absent translations are left
byte-identical and present translations are spliced positionally (shown on
the three-span document). -/
theorem process_snbt_splice_empty_translation_bug :
    process_snbt_splice ['a', 'b', 'c'] [((0, 1), "0")] [("0", .str "")]
      = ['b', 'c'] ∧
    process_snbt_splice ['a', 'b', 'c'] [((0, 1), "0")] [("0", .str "")]
      ≠ ['a', 'b', 'c'] ∧
    process_snbt_splice ("AA BB CC".toList)
      [((0, 2), "0"), ((3, 5), "1"), ((6, 8), "2")]
      [("0", .str "X"), ("2", .str "YYY")]
      = "X BB YYY".toList := by
  refine ⟨rfl, by decide, rfl⟩

/-! JSON sanitizer: sanitize_json_content (src/logic/common.rs,
lines 170-247). -/

/-- Rust char::is_control: the Unicode Cc category. -/
def isCc (c : Char) : Bool :=
  c.toNat < 32 || (127 ≤ c.toNat && c.toNat ≤ 159)

/-- Skip to the end of the comment line: consume up to, but not including,
the next newline or carriage return (common.rs lines 189-194 and
201-206). -/
def skipLine (cs : List Char) : List Char :=
  cs.dropWhile (fun c => !(c = '\n' || c = '\r'))

/-- The character loop of sanitize_json_content (common.rs lines 181-245),
with the in-string and escape flags explicit and fuel bounding the number
of iterations (the fuel equals the input length at the top-level call,
which is exact because every iteration consumes at least one character). -/
def sanitizeGo : Nat → List Char → Bool → Bool → List Char
  | 0, _, _, _ => []
  | _ + 1, [], _, _ => []
  | fuel + 1, c :: cs, false, _ =>
    if c = '/' ∧ cs.head? = some '/' then
      sanitizeGo fuel (skipLine cs.tail) false false
    else if c = '#' then
      sanitizeGo fuel (skipLine cs) false false
    else if c = '"' then
      '"' :: sanitizeGo fuel cs true false
    else
      c :: sanitizeGo fuel cs false false
  | fuel + 1, c :: cs, true, true =>
    if c = '\n' then 'n' :: sanitizeGo fuel cs true false
    else if c = '\r' then sanitizeGo fuel cs true false
    else c :: sanitizeGo fuel cs true false
  | fuel + 1, c :: cs, true, false =>
    if c = '\\' then '\\' :: sanitizeGo fuel cs true true
    else if c = '"' then '"' :: sanitizeGo fuel cs false false
    else if c = '\n' then '\\' :: 'n' :: sanitizeGo fuel cs true false
    else if c = '\r' then sanitizeGo fuel cs true false
    else if c = '\t' then '\\' :: 't' :: sanitizeGo fuel cs true false
    else if isCc c then sanitizeGo fuel cs true false
    else c :: sanitizeGo fuel cs true false

/-- The leading byte-order-mark strip (common.rs lines 176-179). -/
def stripBom (content : List Char) : List Char :=
  match content with
  | c :: rest => if c = Char.ofNat 0xFEFF then rest else content
  | [] => []

/-- sanitize_json_content (common.rs lines 170-247). -/
def sanitize_json_content (content : List Char) : List Char :=
  sanitizeGo (stripBom content).length (stripBom content) false false

/-- The cleanliness scan mirroring the claim: outside strings no hash
character and no double-slash sequence; inside strings no raw control
character (in either escape state). -/
def cleanGo : List Char → Bool → Bool → Bool
  | [], _, _ => true
  | c :: cs, false, _ =>
    if c = '#' then false
    else if c = '/' ∧ cs.head? = some '/' then false
    else cleanGo cs (c = '"') false
  | c :: cs, true, true => !(isCc c) && cleanGo cs true false
  | c :: cs, true, false =>
    if c = '\\' then cleanGo cs true true
    else if c = '"' then cleanGo cs false false
    else !(isCc c) && cleanGo cs true false

/-- Clean input: no leading byte-order mark, no comment syntax outside
strings, no raw control characters inside strings. -/
def cleanJson (content : List Char) : Bool :=
  (match content with
    | c :: _ => !(c = Char.ofNat 0xFEFF)
    | [] => true) && cleanGo content false false

theorem sanitizeGo_clean : ∀ (cs : List Char) (inStr esc : Bool),
    cleanGo cs inStr esc = true → sanitizeGo cs.length cs inStr esc = cs := by
  intro cs
  induction cs with
  | nil =>
    intro inStr esc _
    cases inStr <;> cases esc <;> rfl
  | cons c cs ih =>
    intro inStr esc hclean
    cases inStr with
    | false =>
      simp only [cleanGo] at hclean
      simp only [List.length_cons, sanitizeGo]
      by_cases h1 : c = '#'
      · rw [if_pos h1] at hclean
        exact absurd hclean (by simp)
      · rw [if_neg h1] at hclean
        by_cases h2 : c = '/' ∧ cs.head? = some '/'
        · rw [if_pos h2] at hclean
          exact absurd hclean (by simp)
        · rw [if_neg h2] at hclean
          rw [if_neg h2, if_neg h1]
          by_cases h3 : c = '"'
          · rw [if_pos h3]
            have hb : (decide (c = '"')) = true := by simp [h3]
            rw [hb] at hclean
            rw [ih true false hclean, h3]
          · rw [if_neg h3]
            have hb : (decide (c = '"')) = false := by simp [h3]
            rw [hb] at hclean
            rw [ih false false hclean]
    | true =>
      cases esc with
      | true =>
        simp only [cleanGo, Bool.and_eq_true, Bool.not_eq_true'] at hclean
        have hn : c ≠ '\n' := fun he => by
          rw [he] at hclean
          exact absurd hclean.1 (by decide)
        have hr : c ≠ '\r' := fun he => by
          rw [he] at hclean
          exact absurd hclean.1 (by decide)
        simp only [List.length_cons, sanitizeGo]
        rw [if_neg hn, if_neg hr, ih true false hclean.2]
      | false =>
        simp only [cleanGo] at hclean
        simp only [List.length_cons, sanitizeGo]
        by_cases h1 : c = '\\'
        · rw [if_pos h1] at hclean
          rw [if_pos h1, ih true true hclean, h1]
        · rw [if_neg h1] at hclean
          by_cases h2 : c = '"'
          · rw [if_pos h2] at hclean
            rw [if_neg h1, if_pos h2, ih false false hclean, h2]
          · rw [if_neg h2] at hclean
            simp only [Bool.and_eq_true, Bool.not_eq_true'] at hclean
            have hn : c ≠ '\n' := fun he => by
              rw [he] at hclean
              exact absurd hclean.1 (by decide)
            have hr : c ≠ '\r' := fun he => by
              rw [he] at hclean
              exact absurd hclean.1 (by decide)
            have ht : c ≠ '\t' := fun he => by
              rw [he] at hclean
              exact absurd hclean.1 (by decide)
            rw [if_neg h1, if_neg h2, if_neg hn, if_neg hr, if_neg ht,
              if_neg (by rw [hclean.1]; exact Bool.false_ne_true),
              ih true false hclean.2]

/-- C9: the JSON sanitizer is the identity on clean input: a text with no
leading byte-order mark, no hash comments or double-slash comments outside
string literals, and no raw control characters inside string literals comes
back unchanged.  On other inputs it strips the leading byte-order mark
(second conjunct) and removes comments and escapes controls (third and
fourth conjuncts evaluate the sanitizer on a double-slash comment and on a
raw newline inside a string). -/
theorem sanitize_json_content_clean_identity (content : List Char)
    (hclean : cleanJson content = true) :
    sanitize_json_content content = content ∧
    sanitize_json_content (Char.ofNat 0xFEFF :: content)
      = sanitize_json_content content ∧
    sanitize_json_content
        ['a', ':', '1', ' ', '/', '/', 'c', '\n', 'b']
      = ['a', ':', '1', ' ', '\n', 'b'] ∧
    sanitize_json_content ['"', 'x', '\n', '"']
      = ['"', 'x', '\\', 'n', '"'] := by
  unfold cleanJson at hclean
  rw [Bool.and_eq_true] at hclean
  have hbom : stripBom content = content := by
    cases content with
    | nil => rfl
    | cons c rest =>
      simp only [stripBom]
      have : ¬ c = Char.ofNat 0xFEFF := by
        have := hclean.1
        simp only [Bool.not_eq_true'] at this
        simp only [decide_eq_false_iff_not] at this
        exact this
      rw [if_neg this]
  refine ⟨?_, ?_, rfl, rfl⟩
  · unfold sanitize_json_content
    rw [hbom]
    exact sanitizeGo_clean content false false hclean.2
  · unfold sanitize_json_content
    have h1 : stripBom (Char.ofNat 0xFEFF :: content) = content := by
      simp only [stripBom]
      rw [if_pos trivial]
    rw [h1, hbom]

/-- Witness for C9: a short clean text is returned unchanged. -/
theorem sanitize_json_content_clean_identity_witness :
    cleanJson ['a', ':', ' ', '"', 'b', '"'] = true ∧
    sanitize_json_content ['a', ':', ' ', '"', 'b', '"']
      = ['a', ':', ' ', '"', 'b', '"'] := by
  exact ⟨by decide,
    (sanitize_json_content_clean_identity ['a', ':', ' ', '"', 'b', '"'] (by decide)).1⟩

end McTranslator
